import Mathlib

/-!
Verification of the web-compile / scss-compile asset pipeline.

This file gives a shallow embedding of the orchestration core of the
repository: the filesystem is an association list from paths (lists of
components) to decoded text content; the external compilers (libsass,
rjsmin, the jinja engine) are parameters of the model; md5 hashing is
implemented concretely.  Logging (quiet/verbose output) is not modelled.
Text encodings are modelled by storing decoded text in the filesystem and
encoding with UTF-8 for hashing; encoding parameters are kept in the
signatures where the source has them.
-/

namespace WebCompileModel

/-- A filesystem path, as a list of components (`root / "src" / "a.scss"`
is `root ++ ["src", "a.scss"]`). -/
abbrev FsPath := List String

/-- The filesystem: an association list from file paths to their decoded
text content.  Directories are tracked separately where needed. -/
abbrev FS := List (FsPath × String)

/-- First-match lookup in an association list (Python dict access). -/
def dictGet {α β : Type} [DecidableEq α] : List (α × β) → α → Option β
  | [], _ => none
  | (k, v) :: rest, a => if k = a then some v else dictGet rest a

/-- Python dict assignment: overwrite in place if the key is present
(keeping its position), otherwise append at the end. -/
def dictSet {α β : Type} [DecidableEq α] : List (α × β) → α → β → List (α × β)
  | [], a, b => [(a, b)]
  | (k, v) :: rest, a, b => if k = a then (a, b) :: rest else (k, v) :: dictSet rest a b

/-- Remove every entry with the given key (file deletion / `unlink`). -/
def dictRemove {α β : Type} [DecidableEq α] : List (α × β) → α → List (α × β)
  | [], _ => []
  | (k, v) :: rest, a => if k = a then dictRemove rest a else (k, v) :: dictRemove rest a

/-- Append an element unless it is already present (set insertion with a
deterministic order). -/
def insertPath (ps : List FsPath) (p : FsPath) : List FsPath :=
  if p ∈ ps then ps else ps ++ [p]

/-- Does a file exist at this path? (`Path.exists`). -/
def fsHas (fs : FS) (p : FsPath) : Bool := (dictGet fs p).isSome

/-- The names of the files directly inside directory `d`
(`Path.iterdir` restricted to files; used to drive globbing). -/
def fsDirFiles (fs : FS) (d : FsPath) : List String :=
  fs.filterMap fun e => if e.1.dropLast = d then e.1.getLast? else none

/-- The final component of a path (`Path.name`); empty for the root. -/
def pathName (p : FsPath) : String := (p.getLast?).getD ""

/-- Render a path as a string with `/` separators (`str(path)` on POSIX). -/
def pathStr (p : FsPath) : String := String.intercalate "/" p

/-- `p.relative_to(root)` for paths built as `root ++ rel`. -/
def relativeTo (root p : FsPath) : FsPath := p.drop root.length

/-- Fueled glob matching on characters, covering the pattern constructs
the sources use: literal characters, `*`, and the negated
single-character class (as in the pattern for non-underscore files).
Fuel is consumed once per step; every step shrinks the combined length,
so the wrapper below always supplies enough fuel.  (The fuel makes the
recursion structural, so the kernel can evaluate it.) -/
def globMatchF : Nat → List Char → List Char → Bool
  | 0, _, _ => false
  | fuel + 1, ps, cs =>
    match ps, cs with
    | [], [] => true
    | '*' :: ps, [] => globMatchF fuel ps []
    | '*' :: ps, c :: cs => globMatchF fuel ps (c :: cs) || globMatchF fuel ('*' :: ps) cs
    | '[' :: '!' :: x :: ']' :: ps, c :: cs => (c ≠ x) && globMatchF fuel ps cs
    | p :: ps, c :: cs => (p = c) && globMatchF fuel ps cs
    | _, _ => false

/-- Glob matching. -/
def globMatch (ps cs : List Char) : Bool := globMatchF (ps.length + cs.length + 1) ps cs

/-- The same matcher written by well-founded recursion; equal to
`globMatch` (proved below) and more convenient for proofs. -/
def globMatchW : List Char → List Char → Bool
  | [], [] => true
  | '*' :: ps, [] => globMatchW ps []
  | '*' :: ps, c :: cs => globMatchW ps (c :: cs) || globMatchW ('*' :: ps) cs
  | '[' :: '!' :: x :: ']' :: ps, c :: cs => (c ≠ x) && globMatchW ps cs
  | p :: ps, c :: cs => (p = c) && globMatchW ps cs
  | _, _ => false
termination_by ps cs => (ps.length, cs.length)

/-- Glob matching on strings. -/
def globMatchStr (pat s : String) : Bool := globMatch pat.toList s.toList

/-- Is `pat` (assumed nonempty at use sites) a substring?  (Python's
`pat in s` on the character list.) -/
def containsSub (pat : List Char) : List Char → Bool
  | [] => pat.isEmpty
  | c :: cs => pat.isPrefixOf (c :: cs) || containsSub pat cs

/-- Fueled core of Python `str.replace`: replace each non-overlapping
occurrence of `pat`, scanning left to right.  Fuel is consumed once per
step; each step shortens the list, so `cs.length` fuel suffices. -/
def listReplaceF (pat repl : List Char) : Nat → List Char → List Char
  | 0, cs => cs
  | fuel + 1, cs =>
    match cs with
    | [] => []
    | c :: cs' =>
      if pat ≠ [] ∧ pat.isPrefixOf (c :: cs') then
        repl ++ listReplaceF pat repl fuel ((c :: cs').drop pat.length)
      else
        c :: listReplaceF pat repl fuel cs'

/-- Python `str.replace` on character lists. -/
def listReplace (pat repl cs : List Char) : List Char :=
  listReplaceF pat repl cs.length cs

/-- Python `str.replace` on strings. -/
def strReplace (s pat repl : String) : String :=
  String.mk (listReplace pat.toList repl.toList s.toList)

/-- Whether a string contains `pat` as a substring. -/
def containsSubStr (s pat : String) : Bool := containsSub pat.toList s.toList

/-- Python `str.rstrip()` (whitespace variant), on character lists. -/
def rstripChars (cs : List Char) : List Char :=
  ((cs.reverse).dropWhile Char.isWhitespace).reverse

/-- Python `str.rstrip()` on strings. -/
def pyRstrip (s : String) : String := String.mk (rstripChars s.toList)

/-- Does `s` start with `p`?  (`str.startswith`.) -/
def strStartsWith (s p : String) : Bool := p.toList.isPrefixOf s.toList

/-- Does `s` end with `p`?  (`str.endswith`.) -/
def strEndsWith (s p : String) : Bool := p.toList.isSuffixOf s.toList

/-! ### md5 (hashlib.md5) -/

/-- Reduce to a 32-bit word. -/
def w32 (n : Nat) : Nat := n % 4294967296

/-- 32-bit bitwise complement (arguments are kept below 2^32). -/
def bnot32 (n : Nat) : Nat := Nat.xor (w32 n) 4294967295

/-- 32-bit left rotation. -/
def rotl32 (x n : Nat) : Nat :=
  w32 (Nat.lor (w32 (Nat.shiftLeft x n)) (Nat.shiftRight x (32 - n)))

/-- UTF-8 encoding of a single code point, as byte values. -/
def utf8EncodeNat (c : Nat) : List Nat :=
  if c < 128 then [c]
  else if c < 2048 then
    [Nat.lor 192 (Nat.shiftRight c 6), Nat.lor 128 (Nat.land c 63)]
  else if c < 65536 then
    [Nat.lor 224 (Nat.shiftRight c 12), Nat.lor 128 (Nat.land (Nat.shiftRight c 6) 63),
     Nat.lor 128 (Nat.land c 63)]
  else
    [Nat.lor 240 (Nat.shiftRight c 18), Nat.lor 128 (Nat.land (Nat.shiftRight c 12) 63),
     Nat.lor 128 (Nat.land (Nat.shiftRight c 6) 63), Nat.lor 128 (Nat.land c 63)]

/-- UTF-8 bytes of a string (`str.encode`). -/
def strBytes (s : String) : List Nat := s.data.flatMap fun c => utf8EncodeNat c.toNat

/-- The md5 per-round constants. -/
def md5K : List Nat :=
  [0xd76aa478, 0xe8c7b756, 0x242070db, 0xc1bdceee,
   0xf57c0faf, 0x4787c62a, 0xa8304613, 0xfd469501,
   0x698098d8, 0x8b44f7af, 0xffff5bb1, 0x895cd7be,
   0x6b901122, 0xfd987193, 0xa679438e, 0x49b40821,
   0xf61e2562, 0xc040b340, 0x265e5a51, 0xe9b6c7aa,
   0xd62f105d, 0x02441453, 0xd8a1e681, 0xe7d3fbc8,
   0x21e1cde6, 0xc33707d6, 0xf4d50d87, 0x455a14ed,
   0xa9e3e905, 0xfcefa3f8, 0x676f02d9, 0x8d2a4c8a,
   0xfffa3942, 0x8771f681, 0x6d9d6122, 0xfde5380c,
   0xa4beea44, 0x4bdecfa9, 0xf6bb4b60, 0xbebfbc70,
   0x289b7ec6, 0xeaa127fa, 0xd4ef3085, 0x04881d05,
   0xd9d4d039, 0xe6db99e5, 0x1fa27cf8, 0xc4ac5665,
   0xf4292244, 0x432aff97, 0xab9423a7, 0xfc93a039,
   0x655b59c3, 0x8f0ccc92, 0xffeff47d, 0x85845dd1,
   0x6fa87e4f, 0xfe2ce6e0, 0xa3014314, 0x4e0811a1,
   0xf7537e82, 0xbd3af235, 0x2ad7d2bb, 0xeb86d391]

/-- The md5 per-round shift amounts. -/
def md5S : List Nat :=
  [7, 12, 17, 22, 7, 12, 17, 22, 7, 12, 17, 22, 7, 12, 17, 22,
   5, 9, 14, 20, 5, 9, 14, 20, 5, 9, 14, 20, 5, 9, 14, 20,
   4, 11, 16, 23, 4, 11, 16, 23, 4, 11, 16, 23, 4, 11, 16, 23,
   6, 10, 15, 21, 6, 10, 15, 21, 6, 10, 15, 21, 6, 10, 15, 21]

/-- Little-endian byte rendering of `n` on `k` bytes. -/
def leBytes (k n : Nat) : List Nat :=
  (List.range k).map fun i => Nat.shiftRight n (8 * i) % 256

/-- The `j`-th little-endian 32-bit word of a 64-byte chunk. -/
def leWord (bs : List Nat) (j : Nat) : Nat :=
  bs.getD (4 * j) 0 + 256 * bs.getD (4 * j + 1) 0 +
    65536 * bs.getD (4 * j + 2) 0 + 16777216 * bs.getD (4 * j + 3) 0

/-- One md5 round on the running state `(a, b, c, d)`. -/
def md5Round (bs : List Nat) (st : Nat × Nat × Nat × Nat) (i : Nat) :
    Nat × Nat × Nat × Nat :=
  let (a, b, c, d) := st
  let fg : Nat × Nat :=
    if i < 16 then (Nat.lor (Nat.land b c) (Nat.land (bnot32 b) d), i)
    else if i < 32 then (Nat.lor (Nat.land d b) (Nat.land (bnot32 d) c), (5 * i + 1) % 16)
    else if i < 48 then (Nat.xor (Nat.xor b c) d, (3 * i + 5) % 16)
    else (Nat.xor c (Nat.lor b (bnot32 d)), (7 * i) % 16)
  let f := w32 (fg.1 + a + md5K.getD i 0 + leWord bs fg.2)
  (d, w32 (b + rotl32 f (md5S.getD i 0)), b, c)

/-- Process one 64-byte chunk. -/
def md5Chunk (acc : Nat × Nat × Nat × Nat) (bs : List Nat) : Nat × Nat × Nat × Nat :=
  let (a0, b0, c0, d0) := acc
  let (a, b, c, d) := (List.range 64).foldl (md5Round bs) acc
  (w32 (a0 + a), w32 (b0 + b), w32 (c0 + c), w32 (d0 + d))

/-- md5 padding: a 1-bit, zeros to 56 mod 64, and the bit length on 8
little-endian bytes. -/
def md5Pad (msg : List Nat) : List Nat :=
  let padLen := (119 - (msg.length % 64)) % 64
  msg ++ [128] ++ List.replicate padLen 0 ++ leBytes 8 (msg.length * 8 % 18446744073709551616)

/-- Lowercase hex digit. -/
def hexChar (n : Nat) : Char := if n < 10 then Char.ofNat (48 + n) else Char.ofNat (87 + n)

/-- Lowercase hex rendering of one 32-bit word, little-endian by byte. -/
def wordHex (w : Nat) : String :=
  String.mk ((leBytes 4 w).flatMap fun b => [hexChar (b / 16), hexChar (b % 16)])

/-- The md5 hex digest of a byte list (the padded message is processed
chunk by chunk; its length is a multiple of 64). -/
def md5Bytes (msg : List Nat) : String :=
  let padded := md5Pad msg
  let (a, b, c, d) :=
    (List.range (padded.length / 64)).foldl
      (fun st i => md5Chunk st ((padded.drop (64 * i)).take 64))
      (0x67452301, 0xefcdab89, 0x98badcfe, 0x10325476)
  wordHex a ++ wordHex b ++ wordHex c ++ wordHex d

/-- The md5 hex digest of a string (`hashlib.md5(s.encode(...)).hexdigest()`;
the embedding encodes with UTF-8 for every configured encoding). -/
def md5hex (s : String) : String := md5Bytes (strBytes s)

/-- `web_compile.hash_file`: md5 hex digest of the text.  The encoding
parameter is kept from the source signature; the embedding always
encodes with UTF-8. -/
def hash_file (string : String) (encoding : String) : String := md5hex string

/-! ### The web_compile run state and `update_file` -/

/-- The spec's `FileChangeRecord`: one record per write attempt of
`update_file`, with `created` for the does-not-exist branch and
`contentChanged` mirroring the returned `changed` boolean. -/
structure FileChangeRecord where
  path : FsPath
  created : Bool
  contentChanged : Bool
deriving DecidableEq, Repr

/-- The mutable run state threaded through `run_compile`: the filesystem,
the set of existing directories, the paths staged with the git
collaborator, the write records, the `compilation_errors` ordered
mapping, and the `file_map` ordered mapping. -/
structure RunSt where
  fs : FS
  dirs : List FsPath
  staged : List FsPath
  records : List FileChangeRecord
  errors : List (String × String)
  fileMap : List (FsPath × FsPath)
deriving DecidableEq, Repr

/-- All prefixes of a path (the directories `mkdir(parents=True)`
touches). -/
def pathPrefixes (p : FsPath) : List FsPath :=
  (List.range (p.length + 1)).map fun i => p.take i

/-- `path.parent.mkdir(parents=True, exist_ok=True)`. -/
def mkdirParents (dirs : List FsPath) (d : FsPath) : List FsPath :=
  (pathPrefixes d).foldl insertPath dirs

/-- `web_compile.update_file`: create the file (staging it when a git
collaborator is configured), overwrite it when the content differs, or
do nothing when it is byte-for-byte equal; mutations are suppressed
under `test_run`.  The `verbose`/`quiet` logging parameters and the
`in_path` parameter (used only for log lines) are not modelled. -/
def update_file (st : RunSt) (path : FsPath) (text : String) (encoding : String)
    (test_run : Bool) (git_repo : Bool) : RunSt × Bool :=
  if fsHas st.fs path = false then
    let st' :=
      if test_run = false then
        { st with
          dirs := mkdirParents st.dirs path.dropLast
          fs := dictSet st.fs path text
          staged := if git_repo then st.staged ++ [path] else st.staged }
      else st
    ({ st' with records := st'.records ++ [⟨path, true, true⟩] }, true)
  else if dictGet st.fs path ≠ some text then
    let st' := if test_run = false then { st with fs := dictSet st.fs path text } else st
    ({ st' with records := st'.records ++ [⟨path, false, true⟩] }, true)
  else
    ({ st with records := st.records ++ [⟨path, false, false⟩] }, false)

/-! ### External collaborators -/

/-- A parsed jinja template: literal text interleaved with applications
of the two filters `compiled_name` and `hash` that `compile_jinja`
installs.  The external jinja engine is modelled as a parser producing
this list; rendering (including the filters' semantics, which live in
`compile_jinja`) is defined below. -/
inductive TmplNode
  | lit (s : String)
  | compiledName (path : FsPath)
  | hashOf (path : FsPath)
deriving DecidableEq, Repr

/-- The external compilers.  `sass.compile` reads the input file (and any
imports) from the filesystem, so it is a function of the filesystem and
the input path; its per-run options (output style, precision, source-map
flags) are fixed by the run configuration and folded into the function.
`rjsmin.jsmin` takes the source text and the keep-comments flag and, like
any Python call, may raise.  The jinja engine parses template text into
`TmplNode`s. -/
structure Compilers where
  sassCompile : FS → FsPath → Except String (String × String)
  jsmin : String → Bool → Except String String
  jinjaParse : String → List TmplNode

/-- The in-memory run configuration consumed by `run_compile` (produced
by the excluded config/CLI adapter layer).  The sass format and precision
options are folded into `Compilers.sassCompile`; `quiet`/`verbose` only
affect logging and are not modelled. -/
structure Config where
  sass_files : List (FsPath × FsPath)
  sass_sourcemap : Bool
  sass_encoding : String
  js_files : List (FsPath × FsPath)
  js_comments : Bool
  js_encoding : String
  jinja_files : List (FsPath × FsPath)
  jinja_encoding : String
  git_add : Bool
  test_run : Bool
  continue_on_error : Bool
  exit_code : Nat
deriving DecidableEq, Repr

/-! ### The three compile phases -/

/-- The stale-hash-variant cleanup loop: for each name in the output
directory listing that matches the wildcard pattern and is not the new
output path, delete it (and count a change) unless `test_run`. -/
def removeStale (pat : String) (newOut : FsPath) (d : FsPath) (test_run : Bool) :
    List String → FS → Bool → FS × Bool
  | [], fs, ch => (fs, ch)
  | nm :: rest, fs, ch =>
    if globMatchStr pat nm = true ∧ d ++ [nm] ≠ newOut then
      if test_run then removeStale pat newOut d test_run rest fs ch
      else removeStale pat newOut d test_run rest (dictRemove fs (d ++ [nm])) true
    else removeStale pat newOut d test_run rest fs ch

/-- One iteration of the `compile_sass` loop body.  `Sum.inl (st, ch)`
continues the loop (with this item's changed flag), `Sum.inr st` models
the `ClickException` raise aborting the run.  Note the source's
missing-input branch under `continue_on_error` skips the item without
recording an error. -/
def sassItem (cc : Compilers) (cfg : Config) (root : FsPath) (git_repo : Bool)
    (st : RunSt) (item : FsPath × FsPath) : (RunSt × Bool) ⊕ RunSt :=
  let sass_input := root ++ item.1
  let sass_output := root ++ item.2
  if fsHas st.fs sass_input = false then
    if cfg.continue_on_error then Sum.inl (st, false)
    else Sum.inr { st with errors := dictSet st.errors (pathStr sass_input) "Path does not exist" }
  else
    match cc.sassCompile st.fs sass_input with
    | Except.error err =>
      let st' := { st with errors := dictSet st.errors (pathStr sass_input) err }
      if cfg.continue_on_error then Sum.inl (st', false) else Sum.inr st'
    | Except.ok (css_str, sourcemap_str) =>
      let (sass_output2, st2, ch1) :=
        if containsSubStr (pathName sass_output) "[hash]" then
          let file_hash := hash_file css_str cfg.sass_encoding
          let newOut := sass_output.dropLast ++
            [strReplace (pathName sass_output) "[hash]" file_hash]
          let pat := strReplace (pathName sass_output) "[hash]" "*"
          let fsch := removeStale pat newOut sass_output.dropLast cfg.test_run
            (fsDirFiles st.fs sass_output.dropLast) st.fs false
          (newOut, { st with fs := fsch.1 }, fsch.2)
        else (sass_output, st, false)
      let st3 := { st2 with
        fileMap := dictSet st2.fileMap (relativeTo root sass_input)
          (relativeTo root sass_output2) }
      let r1 := update_file st3 sass_output2 css_str cfg.sass_encoding cfg.test_run git_repo
      let r2 :=
        if cfg.sass_sourcemap then
          update_file r1.1 (sass_output2.dropLast ++ [pathName sass_input ++ ".map.json"])
            sourcemap_str cfg.sass_encoding cfg.test_run git_repo
        else (r1.1, false)
      Sum.inl (r2.1, ch1 || r1.2 || r2.2)

/-- `web_compile.compile_sass`: fold the loop body over the configured
mapping, accumulating the changed flag; the third component records
whether a `ClickException` aborted the phase. -/
def compile_sass (cc : Compilers) (cfg : Config) (root : FsPath) (git_repo : Bool) :
    List (FsPath × FsPath) → RunSt → Bool → RunSt × Bool × Bool
  | [], st, ch => (st, ch, false)
  | item :: rest, st, ch =>
    match sassItem cc cfg root git_repo st item with
    | Sum.inl (st', chI) => compile_sass cc cfg root git_repo rest st' (ch || chI)
    | Sum.inr st' => (st', ch, true)

/-- One iteration of the `minify_js` loop body.  Unlike `sassItem`, a
missing input records an error before the continue/raise decision.  The
minified text is normalized (`rstrip` plus one newline, with `os.linesep`
modelled as a POSIX newline). -/
def jsItem (cc : Compilers) (cfg : Config) (root : FsPath) (git_repo : Bool)
    (st : RunSt) (item : FsPath × FsPath) : (RunSt × Bool) ⊕ RunSt :=
  let input_path := root ++ item.1
  let output_path := root ++ item.2
  if fsHas st.fs input_path = false then
    let st' := { st with errors := dictSet st.errors (pathStr input_path) "Path does not exist" }
    if cfg.continue_on_error then Sum.inl (st', false) else Sum.inr st'
  else
    match cc.jsmin ((dictGet st.fs input_path).getD "") cfg.js_comments with
    | Except.error err =>
      let st' := { st with errors := dictSet st.errors (pathStr input_path) err }
      if cfg.continue_on_error then Sum.inl (st', false) else Sum.inr st'
    | Except.ok js0 =>
      let js_str := pyRstrip js0 ++ "\n"
      let (output_path2, st2, ch1) :=
        if containsSubStr (pathName output_path) "[hash]" then
          let file_hash := hash_file js_str cfg.js_encoding
          let newOut := output_path.dropLast ++
            [strReplace (pathName output_path) "[hash]" file_hash]
          let pat := strReplace (pathName output_path) "[hash]" "*"
          let fsch := removeStale pat newOut output_path.dropLast cfg.test_run
            (fsDirFiles st.fs output_path.dropLast) st.fs false
          (newOut, { st with fs := fsch.1 }, fsch.2)
        else (output_path, st, false)
      let st3 := { st2 with
        fileMap := dictSet st2.fileMap (relativeTo root input_path)
          (relativeTo root output_path2) }
      let r1 := update_file st3 output_path2 js_str cfg.js_encoding cfg.test_run git_repo
      Sum.inl (r1.1, ch1 || r1.2)

/-- `web_compile.minify_js`. -/
def minify_js (cc : Compilers) (cfg : Config) (root : FsPath) (git_repo : Bool) :
    List (FsPath × FsPath) → RunSt → Bool → RunSt × Bool × Bool
  | [], st, ch => (st, ch, false)
  | item :: rest, st, ch =>
    match jsItem cc cfg root git_repo st item with
    | Sum.inl (st', chI) => minify_js cc cfg root git_repo rest st' (ch || chI)
    | Sum.inr st' => (st', ch, true)

/-- The `compiled_name` and `hash` filters installed by `compile_jinja`,
applied to one template node.  Both raise a `KeyError` when the path is
falsy or not a key of `file_map`; `compiled_name` returns the final
(hash-substituted) output filename, `hash` returns the md5 digest of the
raw source file read from disk as UTF-8. -/
def renderNode (root : FsPath) (fs : FS) (file_map : List (FsPath × FsPath)) :
    TmplNode → Except String String
  | TmplNode.lit s => Except.ok s
  | TmplNode.compiledName p =>
    if p = [] ∨ dictGet file_map p = none then
      Except.error ("No compiled path: " ++ pathStr p)
    else Except.ok (pathName ((dictGet file_map p).getD []))
  | TmplNode.hashOf p =>
    if p = [] ∨ dictGet file_map p = none then
      Except.error ("No compiled path: " ++ pathStr p)
    else
      match dictGet fs (root ++ p) with
      | none => Except.error ("No such file: " ++ pathStr (root ++ p))
      | some t => Except.ok (hash_file t "utf8")

/-- Render a parsed template: concatenate the nodes' results; a filter
exception propagates out of `render()`. -/
def renderTemplate (root : FsPath) (fs : FS) (file_map : List (FsPath × FsPath))
    (ns : List TmplNode) : Except String String :=
  ns.foldl
    (fun acc n =>
      match acc with
      | Except.error e => Except.error e
      | Except.ok s =>
        match renderNode root fs file_map n with
        | Except.error e => Except.error e
        | Except.ok t => Except.ok (s ++ t))
    (Except.ok "")

/-- One iteration of the `compile_jinja` loop body: render the template
with the filters closed over the run's `file_map`, normalize, and write.
Jinja outputs are not hash-named and are not added to `file_map`.  The
`jinja_variables` globals only affect plain template text and are folded
into the parsed node list. -/
def jinjaItem (cc : Compilers) (cfg : Config) (root : FsPath) (git_repo : Bool)
    (st : RunSt) (item : FsPath × FsPath) : (RunSt × Bool) ⊕ RunSt :=
  let input_path := root ++ item.1
  let output_path := root ++ item.2
  if fsHas st.fs input_path = false then
    let st' := { st with errors := dictSet st.errors (pathStr input_path) "Path does not exist" }
    if cfg.continue_on_error then Sum.inl (st', false) else Sum.inr st'
  else
    match renderTemplate root st.fs st.fileMap
        (cc.jinjaParse ((dictGet st.fs input_path).getD "")) with
    | Except.error err =>
      let st' := { st with errors := dictSet st.errors (pathStr input_path) err }
      if cfg.continue_on_error then Sum.inl (st', false) else Sum.inr st'
    | Except.ok r =>
      let jinja_str := pyRstrip r ++ "\n"
      let r1 := update_file st output_path jinja_str cfg.jinja_encoding cfg.test_run git_repo
      Sum.inl (r1.1, r1.2)

/-- `web_compile.compile_jinja`. -/
def compile_jinja (cc : Compilers) (cfg : Config) (root : FsPath) (git_repo : Bool) :
    List (FsPath × FsPath) → RunSt → Bool → RunSt × Bool × Bool
  | [], st, ch => (st, ch, false)
  | item :: rest, st, ch =>
    match jinjaItem cc cfg root git_repo st item with
    | Sum.inl (st', chI) => compile_jinja cc cfg root git_repo rest st' (ch || chI)
    | Sum.inr st' => (st', ch, true)

/-! ### The whole run -/

/-- How the process terminates: `fatal` models a `ClickException`
(process exit status 1, distinct from any `code n` by construction);
`code n` models `sys.exit(n)` or a normal return (`code 0`). -/
inductive RunExit
  | fatal
  | code (n : Nat)
deriving DecidableEq, Repr

/-- The outcome of one invocation. -/
structure RunResult where
  st : RunSt
  changed : Bool
  exit : RunExit
deriving DecidableEq, Repr

/-- The fresh run state at process start. -/
def initSt (fs : FS) (dirs : List FsPath) : RunSt :=
  { fs := fs, dirs := dirs, staged := [], records := [], errors := [], fileMap := [] }

/-- `web_compile.run_compile`: the three phases in order, then the final
error / changed-files / success exit policy.  The git-repository
validity check is external and assumed to pass; `git_repo` is configured
iff `git_add` is set. -/
def run_compile (cc : Compilers) (cfg : Config) (root : FsPath) (fs : FS)
    (dirs : List FsPath) : RunResult :=
  let git_repo := cfg.git_add
  let p1 := compile_sass cc cfg root git_repo cfg.sass_files (initSt fs dirs) false
  if p1.2.2 then ⟨p1.1, p1.2.1, RunExit.fatal⟩ else
  let p2 := minify_js cc cfg root git_repo cfg.js_files p1.1 p1.2.1
  if p2.2.2 then ⟨p2.1, p2.2.1, RunExit.fatal⟩ else
  let p3 := compile_jinja cc cfg root git_repo cfg.jinja_files p2.1 p2.2.1
  if p3.2.2 then ⟨p3.1, p3.2.1, RunExit.fatal⟩ else
  if p3.1.errors ≠ [] then ⟨p3.1, p3.2.1, RunExit.fatal⟩
  else if p3.2.1 then ⟨p3.1, p3.2.1, RunExit.code cfg.exit_code⟩
  else ⟨p3.1, p3.2.1, RunExit.code 0⟩

/-! ### Convergence: a filesystem on which a run is a no-op

A filesystem is converged for a configuration when every mapping's input
exists and compiles, every output already holds its computed artifact,
and every hashed-name pattern matches only its own output.  A successful,
interference-free run leaves the filesystem converged, and a run from a
converged filesystem changes nothing and exits 0. -/

/-- The final output path of a mapping after hash substitution (the
output path template is `root ++ outRel`, the artifact text is `text`,
hashed with `encoding`). -/
def hashedOut (encoding : String) (root : FsPath) (text : String) (outRel : FsPath) :
    FsPath :=
  let out := root ++ outRel
  if containsSubStr (pathName out) "[hash]" then
    out.dropLast ++ [strReplace (pathName out) "[hash]" (hash_file text encoding)]
  else out

/-- The wildcard cleanup check: every directory entry matching the
hashed-name pattern is the new output itself. -/
def cleanOkB (encoding : String) (root : FsPath) (fs : FS) (text : String)
    (outRel : FsPath) : Bool :=
  let out := root ++ outRel
  if containsSubStr (pathName out) "[hash]" then
    (fsDirFiles fs out.dropLast).all fun nm =>
      !globMatchStr (strReplace (pathName out) "[hash]" "*") nm ||
        decide (out.dropLast ++ [nm] = hashedOut encoding root text outRel)
  else true

/-- Is one sass mapping already satisfied by `fs`? -/
def sassItemOkB (cc : Compilers) (cfg : Config) (root : FsPath) (fs : FS)
    (item : FsPath × FsPath) : Bool :=
  fsHas fs (root ++ item.1) &&
    match cc.sassCompile fs (root ++ item.1) with
    | Except.error _ => false
    | Except.ok (css_str, sourcemap_str) =>
      cleanOkB cfg.sass_encoding root fs css_str item.2 &&
        decide (dictGet fs (hashedOut cfg.sass_encoding root css_str item.2) = some css_str) &&
        (!cfg.sass_sourcemap ||
          decide (dictGet fs
            ((hashedOut cfg.sass_encoding root css_str item.2).dropLast ++
              [pathName (root ++ item.1) ++ ".map.json"]) = some sourcemap_str))

/-- Is one js mapping already satisfied by `fs`? -/
def jsItemOkB (cc : Compilers) (cfg : Config) (root : FsPath) (fs : FS)
    (item : FsPath × FsPath) : Bool :=
  fsHas fs (root ++ item.1) &&
    match cc.jsmin ((dictGet fs (root ++ item.1)).getD "") cfg.js_comments with
    | Except.error _ => false
    | Except.ok js0 =>
      cleanOkB cfg.js_encoding root fs (pyRstrip js0 ++ "\n") item.2 &&
        decide (dictGet fs (hashedOut cfg.js_encoding root (pyRstrip js0 ++ "\n") item.2) =
          some (pyRstrip js0 ++ "\n"))

/-- Is one jinja mapping already satisfied by `fs`, given the run's
input-to-output file map? -/
def jinjaItemOkB (cc : Compilers) (cfg : Config) (root : FsPath) (fs : FS)
    (fm : List (FsPath × FsPath)) (item : FsPath × FsPath) : Bool :=
  fsHas fs (root ++ item.1) &&
    match renderTemplate root fs fm
        (cc.jinjaParse ((dictGet fs (root ++ item.1)).getD "")) with
    | Except.error _ => false
    | Except.ok r =>
      decide (dictGet fs (root ++ item.2) = some (pyRstrip r ++ "\n"))

/-- The file-map entries the sass phase would add over `fs`. -/
def buildFileMapSass (cc : Compilers) (cfg : Config) (root : FsPath) (fs : FS) :
    List (FsPath × FsPath) → List (FsPath × FsPath) → List (FsPath × FsPath)
  | [], fm => fm
  | item :: rest, fm =>
    buildFileMapSass cc cfg root fs rest
      (match cc.sassCompile fs (root ++ item.1) with
        | Except.error _ => fm
        | Except.ok (css_str, _) =>
          dictSet fm (relativeTo root (root ++ item.1))
            (relativeTo root (hashedOut cfg.sass_encoding root css_str item.2)))

/-- The file-map entries the js phase would add over `fs`. -/
def buildFileMapJs (cc : Compilers) (cfg : Config) (root : FsPath) (fs : FS) :
    List (FsPath × FsPath) → List (FsPath × FsPath) → List (FsPath × FsPath)
  | [], fm => fm
  | item :: rest, fm =>
    buildFileMapJs cc cfg root fs rest
      (match cc.jsmin ((dictGet fs (root ++ item.1)).getD "") cfg.js_comments with
        | Except.error _ => fm
        | Except.ok js0 =>
          dictSet fm (relativeTo root (root ++ item.1))
            (relativeTo root (hashedOut cfg.js_encoding root (pyRstrip js0 ++ "\n") item.2)))

/-- The file map at the start of the jinja phase. -/
def runFileMap (cc : Compilers) (cfg : Config) (root : FsPath) (fs : FS) :
    List (FsPath × FsPath) :=
  buildFileMapJs cc cfg root fs cfg.js_files
    (buildFileMapSass cc cfg root fs cfg.sass_files [])

/-- Is `fs` converged for the whole configuration? -/
def convergedB (cc : Compilers) (cfg : Config) (root : FsPath) (fs : FS) : Bool :=
  cfg.sass_files.all (fun it => sassItemOkB cc cfg root fs it) &&
    cfg.js_files.all (fun it => jsItemOkB cc cfg root fs it) &&
    cfg.jinja_files.all (fun it =>
      jinjaItemOkB cc cfg root fs (runFileMap cc cfg root fs) it)

/-- No record in the list reports a content change. -/
def noContentChanged (rs : List FileChangeRecord) : Bool :=
  rs.all fun r => !r.contentChanged

/-- The (changeless) records one satisfied sass mapping produces. -/
def sassNoopRecs (cfg : Config) (root : FsPath) (css : String) (item : FsPath × FsPath) :
    List FileChangeRecord :=
  [⟨hashedOut cfg.sass_encoding root css item.2, false, false⟩] ++
    (if cfg.sass_sourcemap then
      [⟨(hashedOut cfg.sass_encoding root css item.2).dropLast ++
          [pathName (root ++ item.1) ++ ".map.json"], false, false⟩]
    else [])

/-- The (changeless) record one satisfied js mapping produces. -/
def jsNoopRecs (cfg : Config) (root : FsPath) (js_str : String) (item : FsPath × FsPath) :
    List FileChangeRecord :=
  [⟨hashedOut cfg.js_encoding root js_str item.2, false, false⟩]

/-- The (changeless) record one satisfied jinja mapping produces. -/
def jinjaNoopRecs (root : FsPath) (item : FsPath × FsPath) : List FileChangeRecord :=
  [⟨root ++ item.2, false, false⟩]

/-- The run state carried out of one loop iteration, whether the loop
continued (`Sum.inl`) or raised (`Sum.inr`). -/
def itemState : (RunSt × Bool) ⊕ RunSt → RunSt := Sum.elim Prod.fst id

/-! ### Concrete collaborators for witnesses and counterexamples -/

/-- A concrete compiler assembly: the sass compiler reads the input and
prefixes it (deterministically), the minifier is the identity, the jinja
parser produces a single literal node. -/
def ccW : Compilers where
  sassCompile := fun fs p =>
    match dictGet fs p with
    | none => Except.error "no input"
    | some s => Except.ok ("C:" ++ s, "M:" ++ s)
  jsmin := fun s _ => Except.ok s
  jinjaParse := fun s => [TmplNode.lit s]

/-- A jinja parser that emits one `compiled_name` filter call on a fixed
path, for exercising the template filters. -/
def ccWJinja (p : FsPath) : Compilers :=
  { ccW with jinjaParse := fun _ => [TmplNode.compiledName p] }

/-- A one-sass-mapping configuration (no hashing). -/
def cfgW1 : Config where
  sass_files := [(["a.scss"], ["dist", "a.css"])]
  sass_sourcemap := false
  sass_encoding := "utf8"
  js_files := []
  js_comments := false
  js_encoding := "utf8"
  jinja_files := []
  jinja_encoding := "utf8"
  git_add := true
  test_run := false
  continue_on_error := false
  exit_code := 3

/-- A configuration whose only js input is missing, in continue-on-error
mode. -/
def cfgX1 : Config where
  sass_files := []
  sass_sourcemap := false
  sass_encoding := "utf8"
  js_files := [(["a.js"], ["a.min.js"])]
  js_comments := false
  js_encoding := "utf8"
  jinja_files := []
  jinja_encoding := "utf8"
  git_add := false
  test_run := false
  continue_on_error := true
  exit_code := 3

/-- The one-sass-mapping configuration in dry-run mode. -/
def cfgT6 : Config := { cfgW1 with test_run := true, git_add := false }

/-- A configuration with one hash-named sass mapping. -/
def cfgW2 : Config :=
  { cfgW1 with
    sass_files := [(["a.scss"], ["dist", "a.[hash].css"])]
    git_add := false }

/-- A sass compiler whose output carries trailing whitespace and no final
newline. -/
def ccX3 : Compilers :=
  { ccW with sassCompile := fun _ _ => Except.ok ("p:q  ", "M") }

/-- A configuration with one succeeding sass mapping and one missing js
input, in continue-on-error mode: errors and changes coexist. -/
def cfgW8 : Config where
  sass_files := [(["a.scss"], ["a.css"])]
  sass_sourcemap := false
  sass_encoding := "utf8"
  js_files := [(["b.js"], ["b.min.js"])]
  js_comments := false
  js_encoding := "utf8"
  jinja_files := []
  jinja_encoding := "utf8"
  git_add := false
  test_run := false
  continue_on_error := true
  exit_code := 3

/-- A configuration whose only sass input is missing, in continue-on-error
mode. -/
def cfgX2 : Config where
  sass_files := [(["m.scss"], ["o.css"])]
  sass_sourcemap := false
  sass_encoding := "utf8"
  js_files := []
  js_comments := false
  js_encoding := "utf8"
  jinja_files := []
  jinja_encoding := "utf8"
  git_add := false
  test_run := false
  continue_on_error := true
  exit_code := 3

end WebCompileModel

namespace ScssCompileModel

open WebCompileModel

/-! ### The legacy scss-compile tool -/

/-- The state the legacy tool mutates: filesystem, directories, and the
paths staged with the git collaborator. -/
structure ScssSt where
  fs : FS
  dirs : List FsPath
  staged : List FsPath
deriving DecidableEq, Repr

/-- `scss_compile.update_file`: like the web_compile version but with no
dry-run parameter and no record keeping; creations are staged. -/
def update_file (st : ScssSt) (path : FsPath) (text : String) (encoding : String)
    (git_repo : Bool) : ScssSt × Bool :=
  if fsHas st.fs path = false then
    ({ st with
        fs := dictSet st.fs path text
        staged := if git_repo then st.staged ++ [path] else st.staged }, true)
  else if dictGet st.fs path ≠ some text then
    ({ st with fs := dictSet st.fs path text }, true)
  else (st, false)

/-- Does the file name mark a partial (leading underscore)? -/
def isUnderscoreName (p : FsPath) : Bool := strStartsWith (pathName p) "_"

/-- `parent_dir.glob("[!_]*.scss")`: the non-partial scss files directly
inside a directory. -/
def globScssFiles (fs : FS) (d : FsPath) : List String :=
  (fsDirFiles fs d).filter fun nm => globMatchStr "[!_]*.scss" nm

/-- The ancestor walk for one partial file: visit `n` directories
starting at `dir` and moving to the parent each step, adding every
non-partial scss file found directly inside each. -/
def walkUp (fs : FS) : Nat → FsPath → List FsPath → List FsPath
  | 0, _, acc => acc
  | n + 1, dir, acc =>
    walkUp fs n dir.dropLast
      ((globScssFiles fs dir).foldl (fun a nm => insertPath a (dir ++ [nm])) acc)

/-- The partial-resolution loop of `scss_compile.run_compile` (the
`scss_paths` set): non-partial arguments pass through; a partial
argument contributes the ancestor walk over `pdepth + 1` directories
starting at its immediate parent. -/
def gather_scss_paths (fs : FS) (pdepth : Nat) (all_paths : List FsPath) : List FsPath :=
  all_paths.foldl
    (fun acc p =>
      if isUnderscoreName p = false then insertPath acc p
      else walkUp fs (pdepth + 1) p.dropLast acc)
    []

/-- The index of the last `.` in a name, if any. -/
def lastDotIdx (cs : List Char) : Option Nat :=
  ((cs.enum.filter fun e => e.2 = '.').map fun e => e.1).getLast?

/-- `os.path.splitext(...)[0]` for a bare file name: split at the last
dot unless every character before it is a dot. -/
def splitextStem (nm : String) : String :=
  match lastDotIdx nm.toList with
  | none => nm
  | some i =>
    if (nm.toList.take i).all (fun c => c = '.') then nm
    else String.mk (nm.toList.take i)

/-- One iteration of the compile loop of `scss_compile.run_compile`
(modelled with an empty `--translate` table, so the output directory is
the source's parent).  Returns the updated error mapping, state, changed
flag, and whether a `ClickException` was raised (`stop_on_error`).
Under `test_run` the directory creation, stale-hash deletion and both
`update_file` calls are skipped entirely. -/
def scssItem (sassC : FS → FsPath → Except String (String × String))
    (encoding : String) (hash_filenames : Bool) (hashPre : String)
    (sourcemap stop_on_error test_run git_repo : Bool)
    (errors : List (String × String)) (st : ScssSt) (changed : Bool)
    (scss_path : FsPath) :
    List (String × String) × ScssSt × Bool × Bool :=
  let out_dir := scss_path.dropLast
  match sassC st.fs scss_path with
  | Except.error err =>
    (dictSet errors (pathStr scss_path) err, st, changed, stop_on_error)
  | Except.ok (css0, smap0) =>
    let css_str := pyRstrip css0 ++ "\n"
    let sourcemap_str := pyRstrip smap0 ++ "\n"
    let st1 := if test_run = false then { st with dirs := mkdirParents st.dirs out_dir } else st
    let out_name := splitextStem (pathName scss_path)
    let (css_out_path, st2, ch1) :=
      if hash_filenames then
        let css_out_path := out_dir ++
          [out_name ++ hashPre ++ hash_file css_str encoding ++ ".css"]
        let fsch := removeStale (out_name ++ hashPre ++ "*.css") css_out_path out_dir
          test_run (fsDirFiles st1.fs out_dir) st1.fs false
        (css_out_path, { st1 with fs := fsch.1 }, fsch.2)
      else (out_dir ++ [out_name ++ ".css"], st1, false)
    if test_run = false then
      let r1 := update_file st2 css_out_path css_str encoding git_repo
      let r2 :=
        if sourcemap then
          update_file r1.1 (out_dir ++ [pathName scss_path ++ ".map.json"]) sourcemap_str
            encoding git_repo
        else (r1.1, false)
      (errors, r2.1, changed || ch1 || r1.2 || r2.2, false)
    else
      (errors, st2, changed || ch1, false)

/-- The `j`-th directory visited by the ancestor walk started at `p`. -/
def nthParent (p : FsPath) : Nat → FsPath
  | 0 => p
  | j + 1 => nthParent p.dropLast j

/-- A concrete sass compiler for the dry-run scenarios. -/
def sassCX : FS → FsPath → Except String (String × String) :=
  fun _ _ => Except.ok ("NEW", "SM")

/-- A state in which the existing output disagrees with the compiled
text, so a real run would overwrite it. -/
def sstX : ScssSt := ⟨[(["a.scss"], "src"), (["a.css"], "OLD")], [], []⟩

end ScssCompileModel

namespace WebCompileModel

/-! ### Association-list lemmas -/

theorem dictGet_set_self {α β : Type} [DecidableEq α] (m : List (α × β)) (k : α) (v : β) :
    dictGet (dictSet m k v) k = some v := by
  induction m with
  | nil => simp [dictGet, dictSet]
  | cons e rest ih =>
    obtain ⟨k', v'⟩ := e
    by_cases h : k' = k <;> simp [dictGet, dictSet, h, ih]

theorem dictGet_set_ne {α β : Type} [DecidableEq α] (m : List (α × β)) (k q : α) (v : β)
    (h : q ≠ k) : dictGet (dictSet m k v) q = dictGet m q := by
  induction m with
  | nil => simp [dictGet, dictSet, Ne.symm h]
  | cons e rest ih =>
    obtain ⟨k', v'⟩ := e
    by_cases h1 : k' = k
    · subst h1
      simp [dictGet, dictSet, Ne.symm h]
    · by_cases h2 : k' = q
      · subst h2
        simp [dictGet, dictSet, h1]
      · simp [dictGet, dictSet, h1, h2, ih]

theorem dictGet_remove_self {α β : Type} [DecidableEq α] (m : List (α × β)) (k : α) :
    dictGet (dictRemove m k) k = none := by
  induction m with
  | nil => simp [dictGet, dictRemove]
  | cons e rest ih =>
    obtain ⟨k', v'⟩ := e
    by_cases h : k' = k <;> simp [dictGet, dictRemove, h, ih]

theorem dictGet_remove_ne {α β : Type} [DecidableEq α] (m : List (α × β)) (k q : α)
    (h : q ≠ k) : dictGet (dictRemove m k) q = dictGet m q := by
  induction m with
  | nil => simp [dictGet, dictRemove]
  | cons e rest ih =>
    obtain ⟨k', v'⟩ := e
    by_cases h1 : k' = k
    · subst h1
      simp [dictGet, dictRemove, Ne.symm h, ih]
    · simp only [dictRemove, dictGet, if_neg h1]
      by_cases h2 : k' = q
      · subst h2
        simp [dictGet]
      · simp [dictGet, h2, ih]

theorem mem_insertPath (ps : List FsPath) (p q : FsPath) :
    q ∈ insertPath ps p ↔ q ∈ ps ∨ q = p := by
  by_cases h : p ∈ ps
  · simp only [insertPath, if_pos h]
    constructor
    · exact Or.inl
    · rintro (hq | rfl)
      · exact hq
      · exact h
  · simp [insertPath, if_neg h]

theorem mem_foldl_insertPath (f : String → FsPath) (names : List String) :
    ∀ (acc : List FsPath) (q : FsPath),
      q ∈ names.foldl (fun a nm => insertPath a (f nm)) acc ↔
        q ∈ acc ∨ ∃ nm ∈ names, q = f nm := by
  induction names with
  | nil => intro acc q; simp
  | cons nm rest ih =>
    intro acc q
    rw [List.foldl_cons, ih, mem_insertPath]
    constructor
    · rintro ((hq | rfl) | ⟨x, hx, rfl⟩)
      · exact Or.inl hq
      · exact Or.inr ⟨nm, by simp⟩
      · exact Or.inr ⟨x, by simp [hx]⟩
    · rintro (hq | ⟨x, hx, rfl⟩)
      · exact Or.inl (Or.inl hq)
      · rcases List.mem_cons.mp hx with rfl | htail
        · exact Or.inl (Or.inr rfl)
        · exact Or.inr ⟨x, htail, rfl⟩

/-! ### Glob-matching theory -/

theorem globMatchF_eq_globMatchW (f : Nat) : ∀ (ps cs : List Char),
    ps.length + cs.length < f → globMatchF f ps cs = globMatchW ps cs := by
  induction f with
  | zero => intro ps cs h; exact absurd h (Nat.not_lt_zero _)
  | succ n ih =>
    intro ps cs h
    simp only [globMatchF]
    split
    · simp [globMatchW]
    · rename_i ps'
      rw [ih ps' [] (by simp at h ⊢; omega)]
      simp [globMatchW]
    · rename_i ps' c' cs'
      rw [ih ps' (c' :: cs') (by simp at h ⊢; omega),
        ih ('*' :: ps') cs' (by simp at h ⊢; omega)]
      simp [globMatchW]
    · rename_i x ps' c' cs'
      rw [ih ps' cs' (by simp at h ⊢; omega)]
      simp [globMatchW]
    · rename_i p ps' c' cs' hne1 hne2
      rw [ih ps' cs' (by simp at h ⊢; omega)]
      rw [globMatchW.eq_5 p ps' c' cs' hne1 hne2]
    · rename_i h1 h2 h3 h4 h5
      rw [globMatchW.eq_6 _ _ h1 h2 h3 h4 h5]

theorem globMatch_eq_globMatchW (ps cs : List Char) : globMatch ps cs = globMatchW ps cs :=
  globMatchF_eq_globMatchW _ ps cs (by omega)

theorem globMatchW_nil_cons (c : Char) (cs : List Char) :
    globMatchW [] (c :: cs) = false := by
  rw [globMatchW.eq_6] <;> intros <;> simp_all

theorem globMatchW_cons_nil (p : Char) (ps : List Char) (hp : p ≠ '*') :
    globMatchW (p :: ps) [] = false := by
  rw [globMatchW.eq_6] <;> intros <;> simp_all

theorem globMatchW_lit (p : Char) (ps : List Char) (c : Char) (cs : List Char)
    (h1 : p ≠ '*') (h2 : p ≠ '[') :
    globMatchW (p :: ps) (c :: cs) = ((p = c) && globMatchW ps cs) := by
  rw [globMatchW.eq_5]
  · intro h
    exact h1 h
  · intro x ps1 h _
    exact h2 h

theorem globMatchW_star_absorb (ps : List Char) :
    ∀ (a cs : List Char), globMatchW ps cs = true →
      globMatchW ('*' :: ps) (a ++ cs) = true := by
  intro a
  induction a with
  | nil =>
    intro cs h
    cases cs with
    | nil => rw [List.nil_append, globMatchW.eq_2]; exact h
    | cons c cs' => rw [List.nil_append, globMatchW.eq_3]; simp [h]
  | cons x a' ih =>
    intro cs h
    rw [List.cons_append, globMatchW.eq_3]
    simp [ih cs h]

theorem globMatchW_star_iff (ps : List Char) :
    ∀ (cs : List Char), globMatchW ('*' :: ps) cs = true ↔
      ∃ a b, cs = a ++ b ∧ globMatchW ps b = true := by
  intro cs
  constructor
  · induction cs with
    | nil =>
      intro h
      rw [globMatchW.eq_2] at h
      exact ⟨[], [], rfl, h⟩
    | cons c cs' ih =>
      intro h
      rw [globMatchW.eq_3] at h
      rcases (by simpa using h :
          globMatchW ps (c :: cs') = true ∨ globMatchW ('*' :: ps) cs' = true) with h' | h'
      · exact ⟨[], c :: cs', rfl, h'⟩
      · obtain ⟨a, b, hab, hb⟩ := ih h'
        exact ⟨c :: a, b, by simp [hab], hb⟩
  · rintro ⟨a, b, rfl, hb⟩
    exact globMatchW_star_absorb ps a b hb

theorem globMatchW_plain (ls : List Char) (h : ∀ c ∈ ls, c ≠ '*' ∧ c ≠ '[') :
    ∀ cs, globMatchW ls cs = true ↔ cs = ls := by
  induction ls with
  | nil =>
    intro cs
    cases cs with
    | nil => simp [globMatchW.eq_1]
    | cons c cs' => simp [globMatchW_nil_cons]
  | cons l ls' ih =>
    intro cs
    have hl := h l (by simp)
    cases cs with
    | nil => simp [globMatchW_cons_nil l ls' hl.1]
    | cons c cs' =>
      rw [globMatchW_lit l ls' c cs' hl.1 hl.2]
      simp only [Bool.and_eq_true, decide_eq_true_eq]
      rw [ih (fun x hx => h x (by simp [hx])) cs']
      constructor
      · rintro ⟨rfl, rfl⟩
        rfl
      · intro hx
        obtain ⟨h1, h2⟩ := List.cons.inj hx
        exact ⟨h1.symm, h2⟩

/-! ### String replacement theory -/

/-- The replacement function written by well-founded recursion; equal to
the fueled `listReplace` and more convenient for proofs. -/
def listReplaceW (pat repl : List Char) : List Char → List Char
  | [] => []
  | c :: cs =>
    if h : pat ≠ [] ∧ pat.isPrefixOf (c :: cs) then
      repl ++ listReplaceW pat repl ((c :: cs).drop pat.length)
    else
      c :: listReplaceW pat repl cs
termination_by cs => cs.length + 1
decreasing_by
  · simp only [List.length_drop, List.length_cons]
    have : 0 < pat.length := List.length_pos.mpr h.1
    omega
  · simp

theorem listReplaceF_eq_W (pat repl : List Char) (f : Nat) :
    ∀ cs : List Char, cs.length ≤ f →
      listReplaceF pat repl f cs = listReplaceW pat repl cs := by
  induction f with
  | zero =>
    intro cs h
    have : cs = [] := List.length_eq_zero.mp (Nat.le_zero.mp h)
    subst this
    simp [listReplaceF, listReplaceW]
  | succ n ih =>
    intro cs h
    cases cs with
    | nil => simp [listReplaceF, listReplaceW]
    | cons c cs' =>
      by_cases hif : pat ≠ [] ∧ pat.isPrefixOf (c :: cs')
      · have hlen : ((c :: cs').drop pat.length).length ≤ n := by
          have hp : 0 < pat.length := List.length_pos.mpr hif.1
          simp only [List.length_drop, List.length_cons]
          simp only [List.length_cons] at h
          omega
        simp only [listReplaceF, listReplaceW, dif_pos hif, if_pos hif, ih _ hlen]
      · have hlen : cs'.length ≤ n := by
          simp only [List.length_cons] at h
          omega
        simp only [listReplaceF, listReplaceW, dif_neg hif, if_neg hif, ih _ hlen]

theorem listReplace_eq_W (pat repl cs : List Char) :
    listReplace pat repl cs = listReplaceW pat repl cs :=
  listReplaceF_eq_W pat repl cs.length cs (Nat.le_refl _)

/-- The cleanup pattern matches the hash-substituted name: replacing a
(nonempty) token by `*` yields a pattern that matches the same name with
the token replaced by any digest, provided the name contains no literal
`*` and the resulting pattern contains no `[`. -/
theorem replaceW_glob (pat dg : List Char) :
    ∀ (n : Nat) (nm : List Char), nm.length ≤ n →
      '*' ∉ nm → '[' ∉ listReplaceW pat ['*'] nm →
      globMatchW (listReplaceW pat ['*'] nm) (listReplaceW pat dg nm) = true := by
  intro n
  induction n with
  | zero =>
    intro nm h _ _
    have : nm = [] := List.length_eq_zero.mp (Nat.le_zero.mp h)
    subst this
    simp [listReplaceW, globMatchW.eq_1]
  | succ n ih =>
    intro nm h h1 h2
    cases nm with
    | nil => simp [listReplaceW, globMatchW.eq_1]
    | cons c cs =>
      by_cases hif : pat ≠ [] ∧ pat.isPrefixOf (c :: cs)
      · rw [listReplaceW.eq_2, dif_pos hif] at h2 ⊢
        rw [listReplaceW.eq_2, dif_pos hif]
        have hp : 0 < pat.length := List.length_pos.mpr hif.1
        have hlen : ((c :: cs).drop pat.length).length ≤ n := by
          simp only [List.length_drop, List.length_cons]
          simp only [List.length_cons] at h
          omega
        have hsub : '*' ∉ (c :: cs).drop pat.length := by
          intro hmem
          exact h1 (List.drop_subset _ _ hmem)
        have h2' : '[' ∉ listReplaceW pat ['*'] ((c :: cs).drop pat.length) := by
          intro hmem
          exact h2 (by simp [hmem])
        simp only [List.singleton_append]
        exact globMatchW_star_absorb _ dg _ (ih _ hlen hsub h2')
      · rw [listReplaceW.eq_2, dif_neg hif] at h2 ⊢
        rw [listReplaceW.eq_2, dif_neg hif]
        have hc1 : c ≠ '*' := fun hx => h1 (by simp [hx])
        have hc2 : c ≠ '[' := fun hx => h2 (by simp [hx])
        rw [globMatchW_lit _ _ _ _ hc1 hc2]
        have hlen : cs.length ≤ n := by
          simp only [List.length_cons] at h
          omega
        have hsub : '*' ∉ cs := fun hx => h1 (by simp [hx])
        have h2' : '[' ∉ listReplaceW pat ['*'] cs := fun hx => h2 (by simp [hx])
        simp [ih _ hlen hsub h2']

/-- Transfer of the previous fact to the string-level functions used by
the pipeline. -/
theorem strReplace_globMatchStr (nm pat dg : String)
    (h1 : '*' ∉ nm.toList) (h2 : '[' ∉ (strReplace nm pat "*").toList) :
    globMatchStr (strReplace nm pat "*") (strReplace nm pat dg) = true := by
  simp only [globMatchStr, strReplace, globMatch_eq_globMatchW, listReplace_eq_W] at h2 ⊢
  have : ("*" : String).toList = ['*'] := rfl
  rw [this]
  exact replaceW_glob pat.toList dg.toList nm.toList.length nm.toList (Nat.le_refl _) h1
    (by simpa [this] using h2)

/-! ### No-op behavior on converged filesystems -/

theorem update_file_noop (st : RunSt) (path : FsPath) (text encoding : String)
    (test_run git_repo : Bool) (h : dictGet st.fs path = some text) :
    update_file st path text encoding test_run git_repo =
      ({ st with records := st.records ++ [⟨path, false, false⟩] }, false) := by
  have hx : fsHas st.fs path = true := by simp [fsHas, h]
  simp [update_file, hx, h]

theorem removeStale_noop (pat : String) (newOut : FsPath) (d : FsPath) (test_run : Bool)
    (names : List String) (fs : FS) (ch : Bool)
    (h : ∀ nm ∈ names, globMatchStr pat nm = true → d ++ [nm] = newOut) :
    removeStale pat newOut d test_run names fs ch = (fs, ch) := by
  induction names with
  | nil => simp [removeStale]
  | cons nm rest ih =>
    have h1 : ¬(globMatchStr pat nm = true ∧ d ++ [nm] ≠ newOut) := by
      rintro ⟨hg, hne⟩
      exact hne (h nm (by simp) hg)
    simp only [removeStale, if_neg h1]
    exact ih fun x hx hg => h x (by simp [hx]) hg

theorem noContentChanged_append_false (rs : List FileChangeRecord) (p : FsPath)
    (c : Bool) : noContentChanged (rs ++ [⟨p, c, false⟩]) = noContentChanged rs := by
  simp [noContentChanged, List.all_append]

theorem sassItem_ok_noop (cc : Compilers) (cfg : Config) (root : FsPath) (git_repo : Bool)
    (st : RunSt) (item : FsPath × FsPath) (css smap : String)
    (hc : cc.sassCompile st.fs (root ++ item.1) = Except.ok (css, smap))
    (hok : sassItemOkB cc cfg root st.fs item = true) :
    sassItem cc cfg root git_repo st item = Sum.inl
      ({ st with
          fileMap := dictSet st.fileMap (relativeTo root (root ++ item.1))
            (relativeTo root (hashedOut cfg.sass_encoding root css item.2))
          records := st.records ++ sassNoopRecs cfg root css item }, false) := by
  simp only [sassItemOkB, hc, Bool.and_eq_true, decide_eq_true_eq] at hok
  obtain ⟨hin, ⟨hb, hget⟩, hmap⟩ := hok
  by_cases hh : containsSubStr (pathName (root ++ item.2)) "[hash]" = true
  · -- hash-named output
    have hclean : ∀ nm ∈ fsDirFiles st.fs (root ++ item.2).dropLast,
        globMatchStr (strReplace (pathName (root ++ item.2)) "[hash]" "*") nm = true →
        (root ++ item.2).dropLast ++ [nm] =
          (root ++ item.2).dropLast ++
            [strReplace (pathName (root ++ item.2)) "[hash]"
              (hash_file css cfg.sass_encoding)] := by
      intro nm hnm hg
      have hb' := hb
      simp only [cleanOkB, hh, if_true, List.all_eq_true] at hb'
      have := hb' nm hnm
      simp only [hg, Bool.not_true, Bool.false_or, decide_eq_true_eq, hashedOut, hh,
        if_true] at this
      exact this
    have hget' : dictGet st.fs ((root ++ item.2).dropLast ++
        [strReplace (pathName (root ++ item.2)) "[hash]" (hash_file css cfg.sass_encoding)]) =
        some css := by
      have := hget
      simp only [hashedOut, hh, if_true] at this
      exact this
    by_cases hsm : cfg.sass_sourcemap = true
    · have hmg : dictGet st.fs ((root ++ item.2).dropLast ++
          [pathName (root ++ item.1) ++ ".map.json"]) = some smap := by
        have := hmap
        simp only [hsm, Bool.not_true, Bool.false_or, hashedOut, hh, if_true,
          decide_eq_true_eq, List.dropLast_concat] at this
        exact this
      simp [sassItem, hin, hc, hh, removeStale_noop _ _ _ _ _ _ _ hclean,
        update_file_noop, hget', hsm, hmg, sassNoopRecs, hashedOut]
    · have hsm' : cfg.sass_sourcemap = false := by
        cases h : cfg.sass_sourcemap
        · rfl
        · exact absurd h hsm
      simp [sassItem, hin, hc, hh, removeStale_noop _ _ _ _ _ _ _ hclean,
        update_file_noop, hget', hsm', sassNoopRecs, hashedOut]
  · -- plain output path
    have hh' : containsSubStr (pathName (root ++ item.2)) "[hash]" = false := by
      cases h : containsSubStr (pathName (root ++ item.2)) "[hash]"
      · rfl
      · exact absurd h hh
    have hget' : dictGet st.fs (root ++ item.2) = some css := by
      have := hget
      simp only [hashedOut, hh', Bool.false_eq_true, if_false] at this
      exact this
    by_cases hsm : cfg.sass_sourcemap = true
    · have hmg : dictGet st.fs ((root ++ item.2).dropLast ++
          [pathName (root ++ item.1) ++ ".map.json"]) = some smap := by
        have := hmap
        simp only [hsm, Bool.not_true, Bool.false_or, hashedOut, hh', Bool.false_eq_true,
          if_false, decide_eq_true_eq] at this
        exact this
      simp [sassItem, hin, hc, hh', update_file_noop, hget', hsm, hmg, sassNoopRecs,
        hashedOut]
    · have hsm' : cfg.sass_sourcemap = false := by
        cases h : cfg.sass_sourcemap
        · rfl
        · exact absurd h hsm
      simp [sassItem, hin, hc, hh', update_file_noop, hget', hsm', sassNoopRecs, hashedOut]

theorem noContentChanged_append (rs ss : List FileChangeRecord) :
    noContentChanged (rs ++ ss) = (noContentChanged rs && noContentChanged ss) := by
  simp [noContentChanged, List.all_append]

theorem noContentChanged_sassNoopRecs (cfg : Config) (root : FsPath) (css : String)
    (item : FsPath × FsPath) : noContentChanged (sassNoopRecs cfg root css item) = true := by
  cases h : cfg.sass_sourcemap <;> simp [sassNoopRecs, noContentChanged, h]

theorem noContentChanged_jsNoopRecs (cfg : Config) (root : FsPath) (js_str : String)
    (item : FsPath × FsPath) : noContentChanged (jsNoopRecs cfg root js_str item) = true := by
  simp [jsNoopRecs, noContentChanged]

theorem noContentChanged_jinjaNoopRecs (root : FsPath) (item : FsPath × FsPath) :
    noContentChanged (jinjaNoopRecs root item) = true := by
  simp [jinjaNoopRecs, noContentChanged]

theorem compile_sass_noop (cc : Compilers) (cfg : Config) (root : FsPath) (git_repo : Bool)
    (items : List (FsPath × FsPath)) (fs : FS) :
    (∀ it ∈ items, sassItemOkB cc cfg root fs it = true) →
    ∀ st ch, st.fs = fs →
      ∃ st', compile_sass cc cfg root git_repo items st ch = (st', ch, false) ∧
        st'.fs = st.fs ∧ st'.errors = st.errors ∧ st'.staged = st.staged ∧
        st'.dirs = st.dirs ∧
        st'.fileMap = buildFileMapSass cc cfg root fs items st.fileMap ∧
        (noContentChanged st.records = true → noContentChanged st'.records = true) := by
  induction items with
  | nil =>
    intro _ st ch _
    exact ⟨st, by simp [compile_sass], rfl, rfl, rfl, rfl, by simp [buildFileMapSass],
      fun h => h⟩
  | cons it rest ih =>
    intro hall st ch hfs
    have hok := hall it (by simp)
    rw [← hfs] at hok
    cases hcase : cc.sassCompile st.fs (root ++ it.1) with
    | error e =>
      exfalso
      simp [sassItemOkB, hcase] at hok
    | ok pr =>
      obtain ⟨css, smap⟩ := pr
      have hcfs : cc.sassCompile fs (root ++ it.1) = Except.ok (css, smap) := by
        rw [← hfs]; exact hcase
      have heq := sassItem_ok_noop cc cfg root git_repo st it css smap hcase hok
      obtain ⟨st', heq', h1, h2, h3, h4, h5, h6⟩ :=
        ih (fun x hx => hall x (List.mem_cons_of_mem _ hx))
          { st with
            fileMap := dictSet st.fileMap (relativeTo root (root ++ it.1))
              (relativeTo root (hashedOut cfg.sass_encoding root css it.2))
            records := st.records ++ sassNoopRecs cfg root css it } ch hfs
      refine ⟨st', ?_, h1, h2, h3, h4, ?_, ?_⟩
      · simp only [compile_sass, heq]
        simpa [Bool.or_false] using heq'
      · rw [h5]
        simp [buildFileMapSass, hcfs]
      · intro h
        exact h6 (by simp [noContentChanged_append, h, noContentChanged_sassNoopRecs])

theorem jsItem_ok_noop (cc : Compilers) (cfg : Config) (root : FsPath) (git_repo : Bool)
    (st : RunSt) (item : FsPath × FsPath) (js0 : String)
    (hc : cc.jsmin ((dictGet st.fs (root ++ item.1)).getD "") cfg.js_comments =
      Except.ok js0)
    (hok : jsItemOkB cc cfg root st.fs item = true) :
    jsItem cc cfg root git_repo st item = Sum.inl
      ({ st with
          fileMap := dictSet st.fileMap (relativeTo root (root ++ item.1))
            (relativeTo root (hashedOut cfg.js_encoding root (pyRstrip js0 ++ "\n") item.2))
          records := st.records ++ jsNoopRecs cfg root (pyRstrip js0 ++ "\n") item }, false)
    := by
  simp only [jsItemOkB, hc, Bool.and_eq_true, decide_eq_true_eq] at hok
  obtain ⟨hin, hb, hget⟩ := hok
  by_cases hh : containsSubStr (pathName (root ++ item.2)) "[hash]" = true
  · have hclean : ∀ nm ∈ fsDirFiles st.fs (root ++ item.2).dropLast,
        globMatchStr (strReplace (pathName (root ++ item.2)) "[hash]" "*") nm = true →
        (root ++ item.2).dropLast ++ [nm] =
          (root ++ item.2).dropLast ++
            [strReplace (pathName (root ++ item.2)) "[hash]"
              (hash_file (pyRstrip js0 ++ "\n") cfg.js_encoding)] := by
      intro nm hnm hg
      have hb' := hb
      simp only [cleanOkB, hh, if_true, List.all_eq_true] at hb'
      have := hb' nm hnm
      simp only [hg, Bool.not_true, Bool.false_or, decide_eq_true_eq, hashedOut, hh,
        if_true] at this
      exact this
    have hget' : dictGet st.fs ((root ++ item.2).dropLast ++
        [strReplace (pathName (root ++ item.2)) "[hash]"
          (hash_file (pyRstrip js0 ++ "\n") cfg.js_encoding)]) =
        some (pyRstrip js0 ++ "\n") := by
      have := hget
      simp only [hashedOut, hh, if_true] at this
      exact this
    simp [jsItem, hin, hc, hh, removeStale_noop _ _ _ _ _ _ _ hclean,
      update_file_noop, hget', jsNoopRecs, hashedOut]
  · have hh' : containsSubStr (pathName (root ++ item.2)) "[hash]" = false := by
      cases h : containsSubStr (pathName (root ++ item.2)) "[hash]"
      · rfl
      · exact absurd h hh
    have hget' : dictGet st.fs (root ++ item.2) = some (pyRstrip js0 ++ "\n") := by
      have := hget
      simp only [hashedOut, hh', Bool.false_eq_true, if_false] at this
      exact this
    simp [jsItem, hin, hc, hh', update_file_noop, hget', jsNoopRecs, hashedOut]

theorem minify_js_noop (cc : Compilers) (cfg : Config) (root : FsPath) (git_repo : Bool)
    (items : List (FsPath × FsPath)) (fs : FS) :
    (∀ it ∈ items, jsItemOkB cc cfg root fs it = true) →
    ∀ st ch, st.fs = fs →
      ∃ st', minify_js cc cfg root git_repo items st ch = (st', ch, false) ∧
        st'.fs = st.fs ∧ st'.errors = st.errors ∧ st'.staged = st.staged ∧
        st'.dirs = st.dirs ∧
        st'.fileMap = buildFileMapJs cc cfg root fs items st.fileMap ∧
        (noContentChanged st.records = true → noContentChanged st'.records = true) := by
  induction items with
  | nil =>
    intro _ st ch _
    exact ⟨st, by simp [minify_js], rfl, rfl, rfl, rfl, by simp [buildFileMapJs],
      fun h => h⟩
  | cons it rest ih =>
    intro hall st ch hfs
    have hok := hall it (by simp)
    rw [← hfs] at hok
    cases hcase : cc.jsmin ((dictGet st.fs (root ++ it.1)).getD "") cfg.js_comments with
    | error e =>
      exfalso
      simp [jsItemOkB, hcase] at hok
    | ok js0 =>
      have hcfs : cc.jsmin ((dictGet fs (root ++ it.1)).getD "") cfg.js_comments =
          Except.ok js0 := by
        rw [← hfs]; exact hcase
      have heq := jsItem_ok_noop cc cfg root git_repo st it js0 hcase hok
      obtain ⟨st', heq', h1, h2, h3, h4, h5, h6⟩ :=
        ih (fun x hx => hall x (List.mem_cons_of_mem _ hx))
          { st with
            fileMap := dictSet st.fileMap (relativeTo root (root ++ it.1))
              (relativeTo root (hashedOut cfg.js_encoding root (pyRstrip js0 ++ "\n") it.2))
            records := st.records ++ jsNoopRecs cfg root (pyRstrip js0 ++ "\n") it } ch hfs
      refine ⟨st', ?_, h1, h2, h3, h4, ?_, ?_⟩
      · simp only [minify_js, heq]
        simpa [Bool.or_false] using heq'
      · rw [h5]
        simp [buildFileMapJs, hcfs]
      · intro h
        exact h6 (by simp [noContentChanged_append, h, noContentChanged_jsNoopRecs])

theorem jinjaItem_ok_noop (cc : Compilers) (cfg : Config) (root : FsPath) (git_repo : Bool)
    (st : RunSt) (item : FsPath × FsPath) (r : String)
    (hr : renderTemplate root st.fs st.fileMap
      (cc.jinjaParse ((dictGet st.fs (root ++ item.1)).getD "")) = Except.ok r)
    (hok : jinjaItemOkB cc cfg root st.fs st.fileMap item = true) :
    jinjaItem cc cfg root git_repo st item = Sum.inl
      ({ st with records := st.records ++ jinjaNoopRecs root item }, false) := by
  simp only [jinjaItemOkB, hr, Bool.and_eq_true, decide_eq_true_eq] at hok
  obtain ⟨hin, hget⟩ := hok
  simp [jinjaItem, hin, hr, update_file_noop, hget, jinjaNoopRecs]

theorem compile_jinja_noop (cc : Compilers) (cfg : Config) (root : FsPath) (git_repo : Bool)
    (items : List (FsPath × FsPath)) (fs : FS) (fm : List (FsPath × FsPath)) :
    (∀ it ∈ items, jinjaItemOkB cc cfg root fs fm it = true) →
    ∀ st ch, st.fs = fs → st.fileMap = fm →
      ∃ st', compile_jinja cc cfg root git_repo items st ch = (st', ch, false) ∧
        st'.fs = st.fs ∧ st'.errors = st.errors ∧ st'.staged = st.staged ∧
        st'.dirs = st.dirs ∧ st'.fileMap = st.fileMap ∧
        (noContentChanged st.records = true → noContentChanged st'.records = true) := by
  induction items with
  | nil =>
    intro _ st ch _ _
    exact ⟨st, by simp [compile_jinja], rfl, rfl, rfl, rfl, rfl, fun h => h⟩
  | cons it rest ih =>
    intro hall st ch hfs hfm
    have hok := hall it (by simp)
    rw [← hfs, ← hfm] at hok
    cases hcase : renderTemplate root st.fs st.fileMap
        (cc.jinjaParse ((dictGet st.fs (root ++ it.1)).getD "")) with
    | error e =>
      exfalso
      simp [jinjaItemOkB, hcase] at hok
    | ok r =>
      have heq := jinjaItem_ok_noop cc cfg root git_repo st it r hcase hok
      obtain ⟨st', heq', h1, h2, h3, h4, h5, h6⟩ :=
        ih (fun x hx => hall x (List.mem_cons_of_mem _ hx))
          { st with records := st.records ++ jinjaNoopRecs root it } ch hfs hfm
      refine ⟨st', ?_, h1, h2, h3, h4, h5, ?_⟩
      · simp only [compile_jinja, heq]
        simpa [Bool.or_false] using heq'
      · intro h
        exact h6 (by simp [noContentChanged_append, h, noContentChanged_jinjaNoopRecs])

theorem run_compile_converged_noop (cc : Compilers) (cfg : Config) (root : FsPath)
    (fs : FS) (dirs : List FsPath) (h : convergedB cc cfg root fs = true) :
    (run_compile cc cfg root fs dirs).st.fs = fs ∧
    (run_compile cc cfg root fs dirs).st.dirs = dirs ∧
    (run_compile cc cfg root fs dirs).st.staged = [] ∧
    (run_compile cc cfg root fs dirs).st.errors = [] ∧
    noContentChanged (run_compile cc cfg root fs dirs).st.records = true ∧
    (run_compile cc cfg root fs dirs).changed = false ∧
    (run_compile cc cfg root fs dirs).exit = RunExit.code 0 := by
  simp only [convergedB, Bool.and_eq_true, List.all_eq_true] at h
  obtain ⟨⟨hs, hj⟩, hg⟩ := h
  obtain ⟨st1, e1, f1, er1, sg1, d1, fm1, r1⟩ :=
    compile_sass_noop cc cfg root cfg.git_add cfg.sass_files fs
      (fun it hit => hs it hit) (initSt fs dirs) false rfl
  have hfs1 : st1.fs = fs := f1
  obtain ⟨st2, e2, f2, er2, sg2, d2, fm2, r2⟩ :=
    minify_js_noop cc cfg root cfg.git_add cfg.js_files fs
      (fun it hit => hj it hit) st1 false hfs1
  have hfs2 : st2.fs = fs := by rw [f2]; exact hfs1
  have hfm2 : st2.fileMap = runFileMap cc cfg root fs := by
    rw [fm2, fm1]
    rfl
  obtain ⟨st3, e3, f3, er3, sg3, d3, fm3, r3⟩ :=
    compile_jinja_noop cc cfg root cfg.git_add cfg.jinja_files fs
      (runFileMap cc cfg root fs) (fun it hit => hg it hit) st2 false hfs2 hfm2
  have her : st3.errors = [] := by
    rw [er3, er2, er1]
    rfl
  have hrun : run_compile cc cfg root fs dirs = ⟨st3, false, RunExit.code 0⟩ := by
    simp only [run_compile, e1, e2, e3]
    simp [her]
  rw [hrun]
  refine ⟨?_, ?_, ?_, her, ?_, rfl, rfl⟩
  · rw [f3, f2]; exact hfs1
  · rw [d3, d2, d1]; rfl
  · rw [sg3, sg2, sg1]; rfl
  · exact r3 (r2 (r1 rfl))

/-! ### C1: idempotence of the pipeline -/

/-- C1 counterexample: a configuration whose only js input does not
exist, under continue-on-error; nothing changes between the two runs,
yet the second run terminates with the error exception (exit status 1),
not with status 0, refuting the claim as universally stated. -/
theorem second_run_not_exit_zero :
    (run_compile ccW cfgX1 [] (run_compile ccW cfgX1 [] [] []).st.fs
      (run_compile ccW cfgX1 [] [] []).st.dirs).exit = RunExit.fatal ∧
    RunExit.fatal ≠ RunExit.code 0 := by decide

/-- C1 (amended): if the first run leaves the filesystem converged for
the configuration — every input exists and compiles, every output
already holds its computed artifact, every hashed-name pattern matches
only its own output (that is, the first run had no compilation errors
and no inter-mapping interference) — then the second run produces zero
records with `contentChanged = true`, leaves the filesystem, directory
set and git index untouched, and exits with status 0. -/
theorem second_run_is_noop (cc : Compilers) (cfg : Config) (root : FsPath)
    (fs0 : FS) (dirs0 : List FsPath)
    (h : convergedB cc cfg root (run_compile cc cfg root fs0 dirs0).st.fs = true) :
    noContentChanged (run_compile cc cfg root (run_compile cc cfg root fs0 dirs0).st.fs
      (run_compile cc cfg root fs0 dirs0).st.dirs).st.records = true ∧
    (run_compile cc cfg root (run_compile cc cfg root fs0 dirs0).st.fs
      (run_compile cc cfg root fs0 dirs0).st.dirs).st.fs =
      (run_compile cc cfg root fs0 dirs0).st.fs ∧
    (run_compile cc cfg root (run_compile cc cfg root fs0 dirs0).st.fs
      (run_compile cc cfg root fs0 dirs0).st.dirs).st.dirs =
      (run_compile cc cfg root fs0 dirs0).st.dirs ∧
    (run_compile cc cfg root (run_compile cc cfg root fs0 dirs0).st.fs
      (run_compile cc cfg root fs0 dirs0).st.dirs).st.staged = [] ∧
    (run_compile cc cfg root (run_compile cc cfg root fs0 dirs0).st.fs
      (run_compile cc cfg root fs0 dirs0).st.dirs).exit = RunExit.code 0 := by
  obtain ⟨h1, h2, h3, _, h5, _, h7⟩ :=
    run_compile_converged_noop cc cfg root (run_compile cc cfg root fs0 dirs0).st.fs
      (run_compile cc cfg root fs0 dirs0).st.dirs h
  exact ⟨h5, h1, h2, h3, h7⟩

set_option maxRecDepth 40000 in
/-- Witness for C1: a concrete one-mapping configuration whose first run
converges; the second run changes nothing and exits 0. -/
theorem second_run_is_noop_witness :
    noContentChanged (run_compile ccW cfgW1 [] (run_compile ccW cfgW1 [] [(["a.scss"], "x")]
      []).st.fs (run_compile ccW cfgW1 [] [(["a.scss"], "x")] []).st.dirs).st.records =
      true ∧
    (run_compile ccW cfgW1 [] (run_compile ccW cfgW1 [] [(["a.scss"], "x")] []).st.fs
      (run_compile ccW cfgW1 [] [(["a.scss"], "x")] []).st.dirs).exit = RunExit.code 0 := by
  have h := second_run_is_noop ccW cfgW1 [] [(["a.scss"], "x")] [] (by decide)
  exact ⟨h.1, h.2.2.2.2⟩

/-! ### C2: the hash-naming invariant -/

theorem update_file_writes (st : RunSt) (path : FsPath) (text encoding : String)
    (git_repo : Bool) :
    dictGet (update_file st path text encoding false git_repo).1.fs path = some text := by
  by_cases h1 : fsHas st.fs path = false
  · simp [update_file, h1, dictGet_set_self]
  · by_cases h2 : dictGet st.fs path = some text
    · simp [update_file, h1, h2]
    · simp [update_file, h1, h2, dictGet_set_self]

theorem scss_update_file_writes (st : ScssCompileModel.ScssSt) (path : FsPath)
    (text encoding : String) (git_repo : Bool) :
    dictGet (ScssCompileModel.update_file st path text encoding git_repo).1.fs path =
      some text := by
  by_cases h1 : fsHas st.fs path = false
  · simp [ScssCompileModel.update_file, h1, dictGet_set_self]
  · by_cases h2 : dictGet st.fs path = some text
    · simp [ScssCompileModel.update_file, h1, h2]
    · simp [ScssCompileModel.update_file, h1, h2, dictGet_set_self]

theorem removeStale_none_mono (pat : String) (newOut d : FsPath) (tr : Bool)
    (names : List String) : ∀ (fs : FS) (ch : Bool) (q : FsPath),
    dictGet fs q = none →
    dictGet (removeStale pat newOut d tr names fs ch).1 q = none := by
  induction names with
  | nil => intro fs ch q h; simpa [removeStale] using h
  | cons nm rest ih =>
    intro fs ch q h
    by_cases hcond : globMatchStr pat nm = true ∧ d ++ [nm] ≠ newOut
    · cases tr with
      | true => simp only [removeStale, if_pos hcond, if_pos rfl]; exact ih fs ch q h
      | false =>
        simp only [removeStale, if_pos hcond, Bool.false_eq_true, if_false]
        apply ih
        by_cases hq : q = d ++ [nm]
        · subst hq; exact dictGet_remove_self _ _
        · rw [dictGet_remove_ne _ _ _ hq]; exact h
    · simp only [removeStale, if_neg hcond]
      exact ih fs ch q h

theorem removeStale_get_other (pat : String) (newOut d : FsPath) (names : List String) :
    ∀ (fs : FS) (ch : Bool) (q : FsPath),
    (∀ nm ∈ names, globMatchStr pat nm = true → d ++ [nm] ≠ newOut → d ++ [nm] ≠ q) →
    dictGet (removeStale pat newOut d false names fs ch).1 q = dictGet fs q := by
  induction names with
  | nil => intro fs ch q _; simp [removeStale]
  | cons nm rest ih =>
    intro fs ch q hq
    by_cases hcond : globMatchStr pat nm = true ∧ d ++ [nm] ≠ newOut
    · simp only [removeStale, if_pos hcond, Bool.false_eq_true, if_false]
      rw [ih _ _ _ (fun x hx => hq x (List.mem_cons_of_mem _ hx))]
      rw [dictGet_remove_ne _ _ _ ?_]
      intro hcontra
      exact hq nm (by simp) hcond.1 hcond.2 hcontra.symm
    · simp only [removeStale, if_neg hcond]
      exact ih _ _ _ (fun x hx => hq x (List.mem_cons_of_mem _ hx))

theorem removeStale_get_deleted (pat : String) (newOut d : FsPath) (names : List String) :
    ∀ (fs : FS) (ch : Bool) (nm : String),
    nm ∈ names → globMatchStr pat nm = true → d ++ [nm] ≠ newOut →
    dictGet (removeStale pat newOut d false names fs ch).1 (d ++ [nm]) = none := by
  induction names with
  | nil => intro fs ch nm h; exact absurd h (List.not_mem_nil _)
  | cons nm0 rest ih =>
    intro fs ch nm hmem hmatch hne
    rcases List.mem_cons.mp hmem with rfl | htail
    · have hcond : globMatchStr pat nm = true ∧ d ++ [nm] ≠ newOut := ⟨hmatch, hne⟩
      simp only [removeStale, if_pos hcond, Bool.false_eq_true, if_false]
      exact removeStale_none_mono _ _ _ _ _ _ _ _ (dictGet_remove_self _ _)
    · by_cases hcond : globMatchStr pat nm0 = true ∧ d ++ [nm0] ≠ newOut
      · simp only [removeStale, if_pos hcond, Bool.false_eq_true, if_false]
        exact ih _ _ _ htail hmatch hne
      · simp only [removeStale, if_neg hcond]
        exact ih _ _ _ htail hmatch hne

theorem fsHas_exists_entry (fs : FS) (k : FsPath) (h : fsHas fs k = true) :
    ∃ v, (k, v) ∈ fs := by
  induction fs with
  | nil => simp [fsHas, dictGet] at h
  | cons e rest ih =>
    obtain ⟨p, t⟩ := e
    by_cases hp : p = k
    · subst hp
      exact ⟨t, by simp⟩
    · simp only [fsHas, dictGet, if_neg hp] at h
      obtain ⟨v, hv⟩ := ih h
      exact ⟨v, List.mem_cons_of_mem _ hv⟩

theorem entry_fsHas (fs : FS) (k : FsPath) (v : String) (h : (k, v) ∈ fs) :
    fsHas fs k = true := by
  induction fs with
  | nil => simp at h
  | cons e rest ih =>
    obtain ⟨p, t⟩ := e
    by_cases hp : p = k
    · subst hp
      simp [fsHas, dictGet]
    · simp only [fsHas, dictGet, if_neg hp]
      rcases List.mem_cons.mp h with heq | htail
      · exact absurd (congrArg Prod.fst heq).symm hp
      · exact ih htail

theorem fsHas_mem_dirFiles (fs : FS) (d : FsPath) (nm : String)
    (h : fsHas fs (d ++ [nm]) = true) : nm ∈ fsDirFiles fs d := by
  obtain ⟨v, hv⟩ := fsHas_exists_entry fs (d ++ [nm]) h
  rw [fsDirFiles, List.mem_filterMap]
  refine ⟨(d ++ [nm], v), hv, ?_⟩
  simp [List.dropLast_concat, List.getLast?_concat]

theorem mem_dirFiles_fsHas (fs : FS) (d : FsPath) (nm : String)
    (h : nm ∈ fsDirFiles fs d) : fsHas fs (d ++ [nm]) = true := by
  rw [fsDirFiles, List.mem_filterMap] at h
  obtain ⟨e, hmem, hfe⟩ := h
  split at hfe
  · rename_i hdrop
    have hne : e.1 ≠ [] := by
      intro hx
      rw [hx] at hfe
      simp at hfe
    have hkey : e.1 = d ++ [nm] := by
      have h1 := (List.dropLast_append_getLast hne).symm
      rw [List.getLast?_eq_getLast _ hne, Option.some.injEq] at hfe
      rw [← hdrop, ← hfe]
      exact h1
    rw [← hkey]
    exact entry_fsHas fs e.1 e.2 (by simpa using hmem)
  · exact absurd hfe (by simp)

theorem update_file_fs_get (st : RunSt) (path : FsPath) (text encoding : String)
    (git_repo : Bool) (q : FsPath) :
    dictGet (update_file st path text encoding false git_repo).1.fs q =
      if q = path then some text else dictGet st.fs q := by
  by_cases hq : q = path
  · subst hq
    exact (if_pos rfl) ▸ update_file_writes st q text encoding git_repo
  · rw [if_neg hq]
    by_cases h1 : fsHas st.fs path = false
    · simp [update_file, h1, dictGet_set_ne _ _ _ _ hq]
    · by_cases h2 : dictGet st.fs path = some text
      · simp [update_file, h1, h2]
      · simp [update_file, h1, h2, dictGet_set_ne _ _ _ _ hq]

theorem append_singleton_inj (d : FsPath) (a b : String) :
    d ++ [a] = d ++ [b] ↔ a = b := by
  constructor
  · intro h
    have := List.append_cancel_left h
    simpa using this
  · rintro rfl
    rfl

/-- C2: for a hash-named sass mapping (outside dry-run, sidecar maps
off, with a template name free of literal wildcard characters): after
the mapping is processed, (A) exactly one file in the output directory
matches the hashed-name pattern, namely the template with the
placeholder replaced by the md5 digest of the artifact — a pure function
of the artifact content; (B) the mapping completes without raising; and
(C) re-running the mapping on the resulting filesystem (the compiler
still producing the same artifact) performs zero writes: every record
is `contentChanged = false`, the filesystem is unchanged, and the same
filename is reproduced in the file map. -/
theorem hash_naming_invariant (cc : Compilers) (cfg : Config) (root : FsPath)
    (git_repo : Bool) (st : RunSt) (item : FsPath × FsPath) (css smap : String)
    (hh : containsSubStr (pathName (root ++ item.2)) "[hash]" = true)
    (htr : cfg.test_run = false) (hsm : cfg.sass_sourcemap = false)
    (hin : fsHas st.fs (root ++ item.1) = true)
    (hc : cc.sassCompile st.fs (root ++ item.1) = Except.ok (css, smap))
    (hstar : '*' ∉ (pathName (root ++ item.2)).toList)
    (hbr : '[' ∉ (strReplace (pathName (root ++ item.2)) "[hash]" "*").toList) :
    (∀ nm', (fsHas (itemState (sassItem cc cfg root git_repo st item)).fs
        ((root ++ item.2).dropLast ++ [nm']) = true ∧
        globMatchStr (strReplace (pathName (root ++ item.2)) "[hash]" "*") nm' = true) ↔
      nm' = strReplace (pathName (root ++ item.2)) "[hash]"
        (hash_file css cfg.sass_encoding)) ∧
    (sassItem cc cfg root git_repo st item).isLeft = true ∧
    (∀ st2 : RunSt, st2.fs = (itemState (sassItem cc cfg root git_repo st item)).fs →
      fsHas st2.fs (root ++ item.1) = true →
      cc.sassCompile st2.fs (root ++ item.1) = Except.ok (css, smap) →
      sassItem cc cfg root git_repo st2 item = Sum.inl
        ({ st2 with
            fileMap := dictSet st2.fileMap (relativeTo root (root ++ item.1))
              (relativeTo root (hashedOut cfg.sass_encoding root css item.2))
            records := st2.records ++ sassNoopRecs cfg root css item }, false)) := by
  have hpat : globMatchStr (strReplace (pathName (root ++ item.2)) "[hash]" "*")
      (strReplace (pathName (root ++ item.2)) "[hash]"
        (hash_file css cfg.sass_encoding)) = true :=
    strReplace_globMatchStr _ _ _ hstar hbr
  have hget : ∀ q, dictGet (itemState (sassItem cc cfg root git_repo st item)).fs q =
      if q = (root ++ item.2).dropLast ++ [strReplace (pathName (root ++ item.2)) "[hash]"
          (hash_file css cfg.sass_encoding)] then some css
      else dictGet (removeStale (strReplace (pathName (root ++ item.2)) "[hash]" "*")
        ((root ++ item.2).dropLast ++ [strReplace (pathName (root ++ item.2)) "[hash]"
          (hash_file css cfg.sass_encoding)])
        (root ++ item.2).dropLast false (fsDirFiles st.fs (root ++ item.2).dropLast)
        st.fs false).1 q := by
    intro q
    simp only [sassItem, hin, Bool.true_eq_false, if_false, hc, hh, if_true, htr, hsm,
      Bool.false_eq_true, itemState, Sum.elim_inl]
    rw [update_file_fs_get]
  have hA : ∀ nm', (fsHas (itemState (sassItem cc cfg root git_repo st item)).fs
      ((root ++ item.2).dropLast ++ [nm']) = true ∧
      globMatchStr (strReplace (pathName (root ++ item.2)) "[hash]" "*") nm' = true) ↔
      nm' = strReplace (pathName (root ++ item.2)) "[hash]"
        (hash_file css cfg.sass_encoding) := by
    intro nm'
    constructor
    · rintro ⟨hhas, hmatch⟩
      by_contra hne
      have hqne : (root ++ item.2).dropLast ++ [nm'] ≠
          (root ++ item.2).dropLast ++ [strReplace (pathName (root ++ item.2)) "[hash]"
            (hash_file css cfg.sass_encoding)] := by
        intro hx
        exact hne ((append_singleton_inj _ _ _).mp hx)
      rw [fsHas, hget, if_neg hqne] at hhas
      have hnone : dictGet (removeStale (strReplace (pathName (root ++ item.2)) "[hash]" "*")
          ((root ++ item.2).dropLast ++ [strReplace (pathName (root ++ item.2)) "[hash]"
            (hash_file css cfg.sass_encoding)])
          (root ++ item.2).dropLast false (fsDirFiles st.fs (root ++ item.2).dropLast)
          st.fs false).1 ((root ++ item.2).dropLast ++ [nm']) = none := by
        by_cases hfs0 : fsHas st.fs ((root ++ item.2).dropLast ++ [nm']) = true
        · exact removeStale_get_deleted _ _ _ _ _ _ _
            (fsHas_mem_dirFiles _ _ _ hfs0) hmatch hqne
        · apply removeStale_none_mono
          cases hx : dictGet st.fs ((root ++ item.2).dropLast ++ [nm']) with
          | none => rfl
          | some v => exact absurd (by simp [fsHas, hx]) hfs0
      rw [hnone] at hhas
      simp at hhas
    · rintro rfl
      refine ⟨?_, hpat⟩
      rw [fsHas, hget, if_pos rfl]
      rfl
  refine ⟨hA, ?_, ?_⟩
  · simp only [sassItem, hin, Bool.true_eq_false, if_false, hc, hh, if_true, htr, hsm,
      Bool.false_eq_true, Sum.isLeft_inl]
  · intro st2 hfs2 hin2 hc2
    have hout : dictGet st2.fs ((root ++ item.2).dropLast ++
        [strReplace (pathName (root ++ item.2)) "[hash]"
          (hash_file css cfg.sass_encoding)]) = some css := by
      rw [hfs2, hget, if_pos rfl]
    have hok : sassItemOkB cc cfg root st2.fs item = true := by
      simp only [sassItemOkB, hc2, Bool.and_eq_true, decide_eq_true_eq]
      refine ⟨hin2, ⟨?_, ?_⟩, ?_⟩
      · simp only [cleanOkB, hh, if_true, List.all_eq_true]
        intro nm hnm
        by_cases hm : globMatchStr (strReplace (pathName (root ++ item.2)) "[hash]" "*")
            nm = true
        · have hhas : fsHas st2.fs ((root ++ item.2).dropLast ++ [nm]) = true :=
            mem_dirFiles_fsHas _ _ _ hnm
          rw [hfs2] at hhas
          have := (hA nm).mp ⟨hhas, hm⟩
          simp [hm, hashedOut, hh, this]
        · simp [hm]
      · simp only [hashedOut, hh, if_true]
        exact hout
      · simp [hsm]
    exact sassItem_ok_noop cc cfg root git_repo st2 item css smap hc2 hok

set_option maxRecDepth 200000 in
/-- Witness for C2: a concrete hash-named mapping.  After the run the
hash-substituted name exists and matches its pattern, the item did not
raise, and re-running it from the produced filesystem leaves the
filesystem unchanged. -/
theorem hash_naming_invariant_witness :
    (fsHas (itemState (sassItem ccW cfgW2 [] false (initSt [(["a.scss"], "x")] [])
        (["a.scss"], ["dist", "a.[hash].css"]))).fs
      ((([] : FsPath) ++ ["dist", "a.[hash].css"]).dropLast ++
        [strReplace (pathName (([] : FsPath) ++ ["dist", "a.[hash].css"])) "[hash]"
          (hash_file "C:x" "utf8")]) = true ∧
      globMatchStr (strReplace (pathName (([] : FsPath) ++ ["dist", "a.[hash].css"]))
        "[hash]" "*")
        (strReplace (pathName (([] : FsPath) ++ ["dist", "a.[hash].css"])) "[hash]"
          (hash_file "C:x" "utf8")) = true) ∧
    (sassItem ccW cfgW2 [] false (initSt [(["a.scss"], "x")] [])
      (["a.scss"], ["dist", "a.[hash].css"])).isLeft = true ∧
    (itemState (sassItem ccW cfgW2 [] false
        (itemState (sassItem ccW cfgW2 [] false (initSt [(["a.scss"], "x")] [])
          (["a.scss"], ["dist", "a.[hash].css"])))
        (["a.scss"], ["dist", "a.[hash].css"]))).fs =
      (itemState (sassItem ccW cfgW2 [] false (initSt [(["a.scss"], "x")] [])
        (["a.scss"], ["dist", "a.[hash].css"]))).fs := by
  have h := hash_naming_invariant ccW cfgW2 [] false (initSt [(["a.scss"], "x")] [])
    (["a.scss"], ["dist", "a.[hash].css"]) "C:x" "M:x" (by decide) rfl rfl (by decide)
    rfl (by decide) (by decide)
  refine ⟨(h.1 _).mpr rfl, h.2.1, ?_⟩
  rw [h.2.2 (itemState (sassItem ccW cfgW2 [] false (initSt [(["a.scss"], "x")] [])
    (["a.scss"], ["dist", "a.[hash].css"]))) rfl (by decide) rfl]
  rfl

/-! ### C5: the write contract of `update_file` -/

/-- C5: for every path, text and encoding (outside dry-run): a
non-existent path gets its parent directories created, the text written,
a `created=true, contentChanged=true` record, and is staged exactly when
a git collaborator is configured; an existing path whose content equals
the text gets a `contentChanged=false` record and no write; an existing
path with different content is overwritten with a
`created=false, contentChanged=true` record and is never staged. -/
theorem update_file_write_contract (st : RunSt) (path : FsPath) (text encoding : String)
    (git_repo : Bool) :
    (fsHas st.fs path = false →
      (update_file st path text encoding false git_repo).1.fs = dictSet st.fs path text ∧
      (update_file st path text encoding false git_repo).1.dirs =
        mkdirParents st.dirs path.dropLast ∧
      (update_file st path text encoding false git_repo).1.records =
        st.records ++ [⟨path, true, true⟩] ∧
      (update_file st path text encoding false git_repo).2 = true ∧
      (update_file st path text encoding false git_repo).1.staged =
        (if git_repo then st.staged ++ [path] else st.staged)) ∧
    (dictGet st.fs path = some text →
      update_file st path text encoding false git_repo =
        ({ st with records := st.records ++ [⟨path, false, false⟩] }, false)) ∧
    (∀ t, dictGet st.fs path = some t → t ≠ text →
      (update_file st path text encoding false git_repo).1.fs = dictSet st.fs path text ∧
      (update_file st path text encoding false git_repo).1.staged = st.staged ∧
      (update_file st path text encoding false git_repo).1.dirs = st.dirs ∧
      (update_file st path text encoding false git_repo).1.records =
        st.records ++ [⟨path, false, true⟩] ∧
      (update_file st path text encoding false git_repo).2 = true) := by
  refine ⟨?_, ?_, ?_⟩
  · intro h
    simp [update_file, h]
  · intro h
    have hx : fsHas st.fs path = true := by simp [fsHas, h]
    simp [update_file, hx, h]
  · intro t ht hne
    have hx : fsHas st.fs path = true := by simp [fsHas, ht]
    have hd : dictGet st.fs path ≠ some text := by simp [ht, hne]
    simp [update_file, hx, hd]

/-- Witness for C5: the three branches exercised on concrete states. -/
theorem update_file_write_contract_witness :
    ((update_file (initSt [] []) ["a.css"] "x" "utf8" false true).2 = true ∧
      (update_file (initSt [] []) ["a.css"] "x" "utf8" false true).1.staged =
        [] ++ [["a.css"]]) ∧
    (update_file (initSt [([ "b.css" ], "x")] []) ["b.css"] "x" "utf8" false true).2 =
      false ∧
    ((update_file (initSt [([ "c.css" ], "old")] []) ["c.css"] "new" "utf8" false true).2 =
      true ∧
      (update_file (initSt [([ "c.css" ], "old")] []) ["c.css"] "new" "utf8" false
        true).1.staged = []) := by
  refine ⟨⟨?_, ?_⟩, ?_, ?_, ?_⟩
  · exact ((update_file_write_contract (initSt [] []) ["a.css"] "x" "utf8" true).1
      (by decide)).2.2.2.1
  · exact (((update_file_write_contract (initSt [] []) ["a.css"] "x" "utf8" true).1
      (by decide)).2.2.2.2).trans (by decide)
  · exact congrArg Prod.snd
      ((update_file_write_contract (initSt [([ "b.css" ], "x")] []) ["b.css"] "x" "utf8"
        true).2.1 (by decide))
  · exact ((update_file_write_contract (initSt [([ "c.css" ], "old")] []) ["c.css"] "new"
      "utf8" true).2.2 "old" (by decide) (by decide)).2.2.2.2
  · exact (((update_file_write_contract (initSt [([ "c.css" ], "old")] []) ["c.css"] "new"
      "utf8" true).2.2 "old" (by decide) (by decide)).2.1).trans (by decide)

/-! ### C3: output normalization -/

/-- C3 counterexample: a sass dispatch in web_compile hashes and writes
the compiler's text verbatim — here the written artifact carries
trailing whitespace and no final newline, so the produced text was not
normalized before writing. -/
theorem sass_text_written_unnormalized :
    dictGet (run_compile ccX3 cfgW1 [] [(["a.scss"], "x")] []).st.fs ["dist", "a.css"] =
      some "p:q  " ∧
    strEndsWith "p:q  " "\n" = false ∧
    "p:q  " ≠ pyRstrip "p:q  " ++ "\n" := by decide

/-- C3 (amended): the js-minification and jinja dispatches of
web_compile, and the sass dispatch of the legacy scss_compile, trim
trailing whitespace and append exactly one newline before hashing and
writing; the sass dispatch of web_compile hashes and writes the
compiler's text unmodified. -/
theorem output_normalization (cc : Compilers) (cfg : Config) (root : FsPath)
    (git_repo : Bool) (st : RunSt) (item : FsPath × FsPath) :
    (∀ js0, cfg.test_run = false →
      fsHas st.fs (root ++ item.1) = true →
      cc.jsmin ((dictGet st.fs (root ++ item.1)).getD "") cfg.js_comments =
        Except.ok js0 →
      ∃ stp, jsItem cc cfg root git_repo st item = Sum.inl stp ∧
        dictGet stp.1.fs (hashedOut cfg.js_encoding root (pyRstrip js0 ++ "\n") item.2) =
          some (pyRstrip js0 ++ "\n")) ∧
    (∀ r, cfg.test_run = false →
      fsHas st.fs (root ++ item.1) = true →
      renderTemplate root st.fs st.fileMap
        (cc.jinjaParse ((dictGet st.fs (root ++ item.1)).getD "")) = Except.ok r →
      ∃ stp, jinjaItem cc cfg root git_repo st item = Sum.inl stp ∧
        dictGet stp.1.fs (root ++ item.2) = some (pyRstrip r ++ "\n")) ∧
    (∀ css smap, cfg.test_run = false → cfg.sass_sourcemap = false →
      fsHas st.fs (root ++ item.1) = true →
      cc.sassCompile st.fs (root ++ item.1) = Except.ok (css, smap) →
      ∃ stp, sassItem cc cfg root git_repo st item = Sum.inl stp ∧
        dictGet stp.1.fs (hashedOut cfg.sass_encoding root css item.2) = some css) ∧
    (∀ (sassC : FS → FsPath → Except String (String × String))
      (encoding hashPre : String) (errors : List (String × String))
      (sst : ScssCompileModel.ScssSt) (changed : Bool) (scss_path : FsPath)
      (css0 smap0 : String),
      sassC sst.fs scss_path = Except.ok (css0, smap0) →
      dictGet (ScssCompileModel.scssItem sassC encoding false hashPre false false false
          false errors sst changed scss_path).2.1.fs
        (scss_path.dropLast ++
          [ScssCompileModel.splitextStem (pathName scss_path) ++ ".css"]) =
        some (pyRstrip css0 ++ "\n")) := by
  refine ⟨?_, ?_, ?_, ?_⟩
  · intro js0 htr hin hc
    by_cases hh : containsSubStr (pathName (root ++ item.2)) "[hash]" = true
    · simp only [jsItem, hin, Bool.true_eq_false, if_false, hc, hh, if_true, htr]
      refine ⟨_, rfl, ?_⟩
      simp [hashedOut, hh, update_file_writes]
    · have hh' : containsSubStr (pathName (root ++ item.2)) "[hash]" = false := by
        cases h : containsSubStr (pathName (root ++ item.2)) "[hash]"
        · rfl
        · exact absurd h hh
      simp only [jsItem, hin, Bool.true_eq_false, if_false, hc, hh', Bool.false_eq_true,
        htr]
      refine ⟨_, rfl, ?_⟩
      simp [hashedOut, hh', update_file_writes]
  · intro r htr hin hr
    simp only [jinjaItem, hin, Bool.true_eq_false, if_false, hr, htr]
    refine ⟨_, rfl, ?_⟩
    simp [update_file_writes]
  · intro css smap htr hsm hin hc
    by_cases hh : containsSubStr (pathName (root ++ item.2)) "[hash]" = true
    · simp only [sassItem, hin, Bool.true_eq_false, if_false, hc, hh, if_true, hsm, htr]
      refine ⟨_, rfl, ?_⟩
      simp [hashedOut, hh, update_file_writes]
    · have hh' : containsSubStr (pathName (root ++ item.2)) "[hash]" = false := by
        cases h : containsSubStr (pathName (root ++ item.2)) "[hash]"
        · rfl
        · exact absurd h hh
      simp only [sassItem, hin, Bool.true_eq_false, if_false, hc, hh', Bool.false_eq_true,
        hsm, htr]
      refine ⟨_, rfl, ?_⟩
      simp [hashedOut, hh', update_file_writes]
  · intro sassC encoding hashPre errors sst changed scss_path css0 smap0 hc
    simp only [ScssCompileModel.scssItem, hc]
    simp only [Bool.false_eq_true, if_false, if_true]
    exact scss_update_file_writes _ _ _ _ _

/-- Witness for C3: the normalization equations exercised on concrete
inputs for all four dispatch kinds. -/
theorem output_normalization_witness :
    (∃ stp, jsItem ccW cfgW8 [] false (initSt [(["b.js"], "q ")] [])
        (["b.js"], ["b.min.js"]) = Sum.inl stp ∧
      dictGet stp.1.fs (hashedOut "utf8" [] (pyRstrip "q " ++ "\n") ["b.min.js"]) =
        some (pyRstrip "q " ++ "\n")) ∧
    (∃ stp, jinjaItem ccW cfgW8 [] false (initSt [(["t.j2"], "q ")] [])
        (["t.j2"], ["t.txt"]) = Sum.inl stp ∧
      dictGet stp.1.fs ["t.txt"] = some (pyRstrip "q " ++ "\n")) ∧
    (∃ stp, sassItem ccX3 cfgW8 [] false (initSt [(["a.scss"], "x")] [])
        (["a.scss"], ["a.css"]) = Sum.inl stp ∧
      dictGet stp.1.fs (hashedOut "utf8" [] "p:q  " ["a.css"]) = some "p:q  ") ∧
    dictGet (ScssCompileModel.scssItem (fun _ _ => Except.ok ("c ", "m")) "utf8" false "#"
        false false false false [] ⟨[(["s", "a.scss"], "y")], [], []⟩ false
        ["s", "a.scss"]).2.1.fs
      (["s", "a.scss"].dropLast ++
        [ScssCompileModel.splitextStem (pathName ["s", "a.scss"]) ++ ".css"]) =
      some (pyRstrip "c " ++ "\n") := by
  refine ⟨?_, ?_, ?_, ?_⟩
  · exact (output_normalization ccW cfgW8 [] false (initSt [(["b.js"], "q ")] [])
      (["b.js"], ["b.min.js"])).1 "q " rfl (by decide) rfl
  · exact (output_normalization ccW cfgW8 [] false (initSt [(["t.j2"], "q ")] [])
      (["t.j2"], ["t.txt"])).2.1 "q " rfl (by decide) rfl
  · exact (output_normalization ccX3 cfgW8 [] false (initSt [(["a.scss"], "x")] [])
      (["a.scss"], ["a.css"])).2.2.1 "p:q  " "M" rfl rfl (by decide) rfl
  · exact (output_normalization ccW cfgW8 [] false (initSt [] [])
      ([], [])).2.2.2 (fun _ _ => Except.ok ("c ", "m")) "utf8" "#" []
      ⟨[(["s", "a.scss"], "y")], [], []⟩ false ["s", "a.scss"] "c " "m" rfl

/-! ### C6: the dry-run frame property -/

theorem update_file_testrun_fs (st : RunSt) (path : FsPath) (text encoding : String)
    (git_repo : Bool) : (update_file st path text encoding true git_repo).1.fs = st.fs := by
  by_cases h1 : fsHas st.fs path = false
  · simp [update_file, h1]
  · by_cases h2 : dictGet st.fs path = some text <;> simp [update_file, h1, h2]

theorem update_file_testrun_dirs (st : RunSt) (path : FsPath) (text encoding : String)
    (git_repo : Bool) :
    (update_file st path text encoding true git_repo).1.dirs = st.dirs := by
  by_cases h1 : fsHas st.fs path = false
  · simp [update_file, h1]
  · by_cases h2 : dictGet st.fs path = some text <;> simp [update_file, h1, h2]

theorem update_file_testrun_staged (st : RunSt) (path : FsPath) (text encoding : String)
    (git_repo : Bool) :
    (update_file st path text encoding true git_repo).1.staged = st.staged := by
  by_cases h1 : fsHas st.fs path = false
  · simp [update_file, h1]
  · by_cases h2 : dictGet st.fs path = some text <;> simp [update_file, h1, h2]

theorem removeStale_testrun (pat : String) (newOut d : FsPath) (names : List String)
    (fs : FS) (ch : Bool) :
    removeStale pat newOut d true names fs ch = (fs, ch) := by
  induction names with
  | nil => simp [removeStale]
  | cons nm rest ih =>
    by_cases h : globMatchStr pat nm = true ∧ d ++ [nm] ≠ newOut <;>
      simp [removeStale, h, ih]

theorem sassItem_testrun_frame (cc : Compilers) (cfg : Config) (root : FsPath)
    (git_repo : Bool) (st : RunSt) (item : FsPath × FsPath) (h : cfg.test_run = true) :
    (itemState (sassItem cc cfg root git_repo st item)).fs = st.fs ∧
    (itemState (sassItem cc cfg root git_repo st item)).dirs = st.dirs ∧
    (itemState (sassItem cc cfg root git_repo st item)).staged = st.staged := by
  simp only [sassItem, h]
  repeat' split
  all_goals simp [itemState, removeStale_testrun, update_file_testrun_fs,
    update_file_testrun_dirs, update_file_testrun_staged]

theorem jsItem_testrun_frame (cc : Compilers) (cfg : Config) (root : FsPath)
    (git_repo : Bool) (st : RunSt) (item : FsPath × FsPath) (h : cfg.test_run = true) :
    (itemState (jsItem cc cfg root git_repo st item)).fs = st.fs ∧
    (itemState (jsItem cc cfg root git_repo st item)).dirs = st.dirs ∧
    (itemState (jsItem cc cfg root git_repo st item)).staged = st.staged := by
  simp only [jsItem, h]
  repeat' split
  all_goals simp [itemState, removeStale_testrun, update_file_testrun_fs,
    update_file_testrun_dirs, update_file_testrun_staged]

theorem jinjaItem_testrun_frame (cc : Compilers) (cfg : Config) (root : FsPath)
    (git_repo : Bool) (st : RunSt) (item : FsPath × FsPath) (h : cfg.test_run = true) :
    (itemState (jinjaItem cc cfg root git_repo st item)).fs = st.fs ∧
    (itemState (jinjaItem cc cfg root git_repo st item)).dirs = st.dirs ∧
    (itemState (jinjaItem cc cfg root git_repo st item)).staged = st.staged := by
  simp only [jinjaItem, h]
  repeat' split
  all_goals simp [itemState, update_file_testrun_fs, update_file_testrun_dirs,
    update_file_testrun_staged]

theorem compile_sass_testrun_frame (cc : Compilers) (cfg : Config) (root : FsPath)
    (git_repo : Bool) (h : cfg.test_run = true) :
    ∀ (items : List (FsPath × FsPath)) (st : RunSt) (ch : Bool),
      (compile_sass cc cfg root git_repo items st ch).1.fs = st.fs ∧
      (compile_sass cc cfg root git_repo items st ch).1.dirs = st.dirs ∧
      (compile_sass cc cfg root git_repo items st ch).1.staged = st.staged := by
  intro items
  induction items with
  | nil => intro st ch; simp [compile_sass]
  | cons it rest ih =>
    intro st ch
    have hf := sassItem_testrun_frame cc cfg root git_repo st it h
    rcases hit : sassItem cc cfg root git_repo st it with p | st1
    · obtain ⟨st1, ch1⟩ := p
      rw [hit] at hf
      simp only [itemState, Sum.elim_inl] at hf
      obtain ⟨ihf, ihd, ihs⟩ := ih st1 (ch || ch1)
      simp only [compile_sass, hit]
      exact ⟨ihf.trans hf.1, ihd.trans hf.2.1, ihs.trans hf.2.2⟩
    · rw [hit] at hf
      simp only [itemState, Sum.elim_inr, id] at hf
      simp only [compile_sass, hit]
      exact hf

theorem minify_js_testrun_frame (cc : Compilers) (cfg : Config) (root : FsPath)
    (git_repo : Bool) (h : cfg.test_run = true) :
    ∀ (items : List (FsPath × FsPath)) (st : RunSt) (ch : Bool),
      (minify_js cc cfg root git_repo items st ch).1.fs = st.fs ∧
      (minify_js cc cfg root git_repo items st ch).1.dirs = st.dirs ∧
      (minify_js cc cfg root git_repo items st ch).1.staged = st.staged := by
  intro items
  induction items with
  | nil => intro st ch; simp [minify_js]
  | cons it rest ih =>
    intro st ch
    have hf := jsItem_testrun_frame cc cfg root git_repo st it h
    rcases hit : jsItem cc cfg root git_repo st it with p | st1
    · obtain ⟨st1, ch1⟩ := p
      rw [hit] at hf
      simp only [itemState, Sum.elim_inl] at hf
      obtain ⟨ihf, ihd, ihs⟩ := ih st1 (ch || ch1)
      simp only [minify_js, hit]
      exact ⟨ihf.trans hf.1, ihd.trans hf.2.1, ihs.trans hf.2.2⟩
    · rw [hit] at hf
      simp only [itemState, Sum.elim_inr, id] at hf
      simp only [minify_js, hit]
      exact hf

theorem compile_jinja_testrun_frame (cc : Compilers) (cfg : Config) (root : FsPath)
    (git_repo : Bool) (h : cfg.test_run = true) :
    ∀ (items : List (FsPath × FsPath)) (st : RunSt) (ch : Bool),
      (compile_jinja cc cfg root git_repo items st ch).1.fs = st.fs ∧
      (compile_jinja cc cfg root git_repo items st ch).1.dirs = st.dirs ∧
      (compile_jinja cc cfg root git_repo items st ch).1.staged = st.staged := by
  intro items
  induction items with
  | nil => intro st ch; simp [compile_jinja]
  | cons it rest ih =>
    intro st ch
    have hf := jinjaItem_testrun_frame cc cfg root git_repo st it h
    rcases hit : jinjaItem cc cfg root git_repo st it with p | st1
    · obtain ⟨st1, ch1⟩ := p
      rw [hit] at hf
      simp only [itemState, Sum.elim_inl] at hf
      obtain ⟨ihf, ihd, ihs⟩ := ih st1 (ch || ch1)
      simp only [compile_jinja, hit]
      exact ⟨ihf.trans hf.1, ihd.trans hf.2.1, ihs.trans hf.2.2⟩
    · rw [hit] at hf
      simp only [itemState, Sum.elim_inr, id] at hf
      simp only [compile_jinja, hit]
      exact hf

theorem run_compile_testrun_frame (cc : Compilers) (cfg : Config) (root : FsPath)
    (fs : FS) (dirs : List FsPath) (h : cfg.test_run = true) :
    (run_compile cc cfg root fs dirs).st.fs = fs ∧
    (run_compile cc cfg root fs dirs).st.dirs = dirs ∧
    (run_compile cc cfg root fs dirs).st.staged = [] := by
  obtain ⟨f1, d1, s1⟩ :=
    compile_sass_testrun_frame cc cfg root cfg.git_add h cfg.sass_files (initSt fs dirs)
      false
  rcases hp1 : compile_sass cc cfg root cfg.git_add cfg.sass_files (initSt fs dirs) false
    with ⟨st1, ch1, ab1⟩
  rw [hp1] at f1 d1 s1
  obtain ⟨f2, d2, s2⟩ := minify_js_testrun_frame cc cfg root cfg.git_add h cfg.js_files st1 ch1
  rcases hp2 : minify_js cc cfg root cfg.git_add cfg.js_files st1 ch1 with ⟨st2, ch2, ab2⟩
  rw [hp2] at f2 d2 s2
  obtain ⟨f3, d3, s3⟩ :=
    compile_jinja_testrun_frame cc cfg root cfg.git_add h cfg.jinja_files st2 ch2
  rcases hp3 : compile_jinja cc cfg root cfg.git_add cfg.jinja_files st2 ch2
    with ⟨st3, ch3, ab3⟩
  rw [hp3] at f3 d3 s3
  have E1 : st1.fs = fs := f1
  have E2 : st2.fs = fs := f2.trans E1
  have E3 : st3.fs = fs := f3.trans E2
  have D1 : st1.dirs = dirs := d1
  have D2 : st2.dirs = dirs := d2.trans D1
  have D3 : st3.dirs = dirs := d3.trans D2
  have S1 : st1.staged = ([] : List FsPath) := s1
  have S2 : st2.staged = ([] : List FsPath) := s2.trans S1
  have S3 : st3.staged = ([] : List FsPath) := s3.trans S2
  simp only [run_compile, hp1, hp2, hp3]
  cases ab1 with
  | true => simp [E1, D1, S1]
  | false =>
    cases ab2 with
    | true => simp [E2, D2, S2]
    | false =>
      cases ab3 with
      | true => simp [E3, D3, S3]
      | false =>
        by_cases herr : st3.errors = []
        · by_cases hch : ch3 = true <;> simp [E3, D3, S3, herr, hch]
        · simp [E3, D3, S3, herr]

/-- C6 counterexample: in the legacy scss_compile tool, a dry run skips
`update_file` entirely, so the changed flag stays false even though a
real run overwrites the stale output — the run does not report which
files would have changed. -/
theorem scss_test_run_no_detection :
    (ScssCompileModel.scssItem ScssCompileModel.sassCX "utf8" false "#" false false true
      false [] ScssCompileModel.sstX false ["a.scss"]).2.2.1 = false ∧
    (ScssCompileModel.scssItem ScssCompileModel.sassCX "utf8" false "#" false false false
      false [] ScssCompileModel.sstX false ["a.scss"]).2.2.1 = true ∧
    (ScssCompileModel.scssItem ScssCompileModel.sassCX "utf8" false "#" false false true
      false [] ScssCompileModel.sstX false ["a.scss"]).2.1.fs =
      ScssCompileModel.sstX.fs := by decide

/-- C6 (amended): under the test-run flag, a whole web_compile run
leaves the filesystem, directory set and git index untouched while
`update_file` still computes the same would-be-changed record and
boolean as a real run on the same state; the legacy scss_compile tool
also mutates nothing under test-run but skips change detection entirely
(its state and changed flag pass through unchanged). -/
theorem dry_run_frame (cc : Compilers) (cfg : Config) (root : FsPath) (fs : FS)
    (dirs : List FsPath) (st : RunSt) (path : FsPath) (text encoding : String)
    (git_repo : Bool) (sassC : FS → FsPath → Except String (String × String))
    (enc2 hashPre : String) (hash_filenames sourcemap stop_on_error git2 : Bool)
    (errors : List (String × String)) (sst : ScssCompileModel.ScssSt) (changed : Bool)
    (scss_path : FsPath) (h : cfg.test_run = true) :
    ((run_compile cc cfg root fs dirs).st.fs = fs ∧
      (run_compile cc cfg root fs dirs).st.dirs = dirs ∧
      (run_compile cc cfg root fs dirs).st.staged = []) ∧
    ((update_file st path text encoding true git_repo).2 =
        (update_file st path text encoding false git_repo).2 ∧
      (update_file st path text encoding true git_repo).1.records =
        (update_file st path text encoding false git_repo).1.records) ∧
    ((ScssCompileModel.scssItem sassC enc2 hash_filenames hashPre sourcemap stop_on_error
        true git2 errors sst changed scss_path).2.1 = sst ∧
      (ScssCompileModel.scssItem sassC enc2 hash_filenames hashPre sourcemap stop_on_error
        true git2 errors sst changed scss_path).2.2.1 = changed) := by
  refine ⟨run_compile_testrun_frame cc cfg root fs dirs h, ⟨?_, ?_⟩, ?_⟩
  · by_cases h1 : fsHas st.fs path = false
    · simp [update_file, h1]
    · by_cases h2 : dictGet st.fs path = some text <;> simp [update_file, h1, h2]
  · by_cases h1 : fsHas st.fs path = false
    · simp [update_file, h1]
    · by_cases h2 : dictGet st.fs path = some text <;> simp [update_file, h1, h2]
  · cases hc : sassC sst.fs scss_path with
    | error e => simp [ScssCompileModel.scssItem, hc]
    | ok pr =>
      obtain ⟨css0, smap0⟩ := pr
      by_cases hh : hash_filenames = true
      · simp [ScssCompileModel.scssItem, hc, hh, removeStale_testrun]
      · have hh' : hash_filenames = false := by
          cases hx : hash_filenames
          · rfl
          · exact absurd hx hh
        simp [ScssCompileModel.scssItem, hc, hh']

/-- Witness for C6: a concrete dry run over one sass mapping with a
stale output: nothing is mutated, yet the web tool still detects the
would-be change while the scss tool's changed flag stays false. -/
theorem dry_run_frame_witness :
    (run_compile ccW cfgT6 [] [(["a.scss"], "x"), (["dist", "a.css"], "OLD")] []).st.fs =
      [(["a.scss"], "x"), (["dist", "a.css"], "OLD")] ∧
    (update_file (initSt [(["o.css"], "OLD")] []) ["o.css"] "NEW" "utf8" true false).2 =
      (update_file (initSt [(["o.css"], "OLD")] []) ["o.css"] "NEW" "utf8" false false).2 ∧
    (ScssCompileModel.scssItem ScssCompileModel.sassCX "utf8" false "#" false false true
      false [] ScssCompileModel.sstX false ["a.scss"]).2.1 = ScssCompileModel.sstX := by
  have h := dry_run_frame ccW cfgT6 [] [(["a.scss"], "x"), (["dist", "a.css"], "OLD")] []
    (initSt [(["o.css"], "OLD")] []) ["o.css"] "NEW" "utf8" false
    ScssCompileModel.sassCX "utf8" "#" false false false false []
    ScssCompileModel.sstX false ["a.scss"] rfl
  exact ⟨h.1.1, h.2.1.1, h.2.2.1⟩

/-! ### C8: exit-code precedence -/

/-- C8: any run that ends with a recorded compilation error terminates
with the error exception (a `ClickException`, exit status 1), which is
never the configured changed-files code; and the configured (non-zero)
changed-files code is reported only when there are zero errors and at
least one change. -/
theorem exit_code_precedence (cc : Compilers) (cfg : Config) (root : FsPath)
    (fs : FS) (dirs : List FsPath) :
    ((run_compile cc cfg root fs dirs).st.errors ≠ [] →
      (run_compile cc cfg root fs dirs).exit = RunExit.fatal ∧
      ∀ n, (run_compile cc cfg root fs dirs).exit ≠ RunExit.code n) ∧
    (cfg.exit_code ≠ 0 →
      (run_compile cc cfg root fs dirs).exit = RunExit.code cfg.exit_code →
      (run_compile cc cfg root fs dirs).st.errors = [] ∧
      (run_compile cc cfg root fs dirs).changed = true) := by
  simp only [run_compile]
  split
  · simp
  · split
    · simp
    · split
      · simp
      · split
        · simp
        · rename_i herr
          split
          · rename_i hch
            constructor
            · intro h
              exact absurd h herr
            · intro _ _
              simp_all
          · rename_i hch
            constructor
            · intro h
              exact absurd h herr
            · intro hn heq
              exfalso
              exact hn (RunExit.code.inj heq).symm

/-- Witness for C8: a run with one succeeding sass mapping (a change)
and one missing js input (an error) exits fatally, not with code 3. -/
theorem exit_code_precedence_witness :
    (run_compile ccW cfgW8 [] [(["a.scss"], "x")] []).exit = RunExit.fatal ∧
    (run_compile ccW cfgW8 [] [(["a.scss"], "x")] []).exit ≠ RunExit.code 3 := by
  have h := (exit_code_precedence ccW cfgW8 [] [(["a.scss"], "x")] []).1 (by decide)
  exact ⟨h.1, h.2 3⟩

/-! ### C4: continue-on-error accumulation -/

/-- C4: evaluation at the failing input.  A missing sass input under
continue-on-error is skipped with no error recorded (the run even
reports success), while the analogous missing js input does record an
error keyed by the input path and makes the run fail — the sass branch
contradicts the spec and its sibling branches. -/
theorem sass_missing_input_not_recorded :
    (run_compile ccW cfgX2 [] [] []).st.errors = [] ∧
    (run_compile ccW cfgX2 [] [] []).exit = RunExit.code 0 ∧
    (run_compile ccW cfgX1 [] [] []).st.errors = [("a.js", "Path does not exist")] ∧
    (run_compile ccW cfgX1 [] [] []).exit = RunExit.fatal := by decide

end WebCompileModel

namespace ScssCompileModel

open WebCompileModel

/-! ### C7: the partial-depth heuristic -/

theorem mem_walkUp (fs : FS) : ∀ (n : Nat) (dir : FsPath) (acc : List FsPath) (q : FsPath),
    q ∈ walkUp fs n dir acc ↔
      q ∈ acc ∨ ∃ j < n, ∃ nm ∈ globScssFiles fs (nthParent dir j),
        q = nthParent dir j ++ [nm] := by
  intro n
  induction n with
  | zero =>
    intro dir acc q
    simp [walkUp]
  | succ n ih =>
    intro dir acc q
    rw [walkUp, ih, mem_foldl_insertPath]
    constructor
    · rintro ((hq | ⟨nm, hnm, rfl⟩) | ⟨j, hj, nm, hnm, rfl⟩)
      · exact Or.inl hq
      · exact Or.inr ⟨0, Nat.succ_pos _, nm, hnm, rfl⟩
      · exact Or.inr ⟨j + 1, Nat.succ_lt_succ hj, nm, hnm, rfl⟩
    · rintro (hq | ⟨j, hj, nm, hnm, rfl⟩)
      · exact Or.inl (Or.inl hq)
      · cases j with
        | zero => exact Or.inl (Or.inr ⟨nm, hnm, rfl⟩)
        | succ j => exact Or.inr ⟨j, Nat.lt_of_succ_lt_succ hj, nm, hnm, rfl⟩

theorem mem_gather_aux (fs : FS) (k : Nat) (all : List FsPath) :
    ∀ (acc : List FsPath) (q : FsPath),
      q ∈ all.foldl
        (fun acc p =>
          if isUnderscoreName p = false then insertPath acc p
          else walkUp fs (k + 1) p.dropLast acc) acc ↔
      q ∈ acc ∨ ∃ p ∈ all,
        (isUnderscoreName p = false ∧ q = p) ∨
        (isUnderscoreName p = true ∧ ∃ j ≤ k,
          ∃ nm ∈ globScssFiles fs (nthParent p.dropLast j), q = nthParent p.dropLast j ++ [nm]) := by
  induction all with
  | nil => intro acc q; simp
  | cons p rest ih =>
    intro acc q
    rw [List.foldl_cons]
    by_cases hp : isUnderscoreName p = false
    · rw [if_pos hp, ih, mem_insertPath]
      constructor
      · rintro ((hq | hq2) | ⟨x, hx, hc⟩)
        · exact Or.inl hq
        · exact Or.inr ⟨p, by simp, Or.inl ⟨hp, hq2⟩⟩
        · exact Or.inr ⟨x, List.mem_cons_of_mem _ hx, hc⟩
      · rintro (hq | ⟨x, hx, hc⟩)
        · exact Or.inl (Or.inl hq)
        · rcases List.mem_cons.mp hx with rfl | htail
          · rcases hc with ⟨_, rfl⟩ | ⟨hpt, _⟩
            · exact Or.inl (Or.inr rfl)
            · exact absurd hpt (by simp [hp])
          · exact Or.inr ⟨x, htail, hc⟩
    · have hp' : isUnderscoreName p = true := by
        cases hx : isUnderscoreName p
        · exact absurd hx hp
        · rfl
      rw [if_neg hp, ih, mem_walkUp]
      constructor
      · rintro ((hq | ⟨j, hj, nm, hnm, rfl⟩) | ⟨x, hx, hc⟩)
        · exact Or.inl hq
        · exact Or.inr ⟨p, by simp, Or.inr ⟨hp', j, Nat.lt_succ_iff.mp hj, nm, hnm, rfl⟩⟩
        · exact Or.inr ⟨x, List.mem_cons_of_mem _ hx, hc⟩
      · rintro (hq | ⟨x, hx, hc⟩)
        · exact Or.inl (Or.inl hq)
        · rcases List.mem_cons.mp hx with rfl | htail
          · rcases hc with ⟨hpf, _⟩ | ⟨_, j, hj, nm, hnm, rfl⟩
            · exact absurd hpf hp
            · exact Or.inl (Or.inr ⟨j, Nat.lt_succ_iff.mpr hj, nm, hnm, rfl⟩)
          · exact Or.inr ⟨x, htail, hc⟩

theorem globScss_pattern_iff (nm : String) :
    globMatchStr "[!_]*.scss" nm = true ↔
      ∃ c mid, nm.toList = c :: (mid ++ (".scss").toList) ∧ c ≠ '_' := by
  rw [globMatchStr, globMatch_eq_globMatchW]
  have hpat : ("[!_]*.scss").toList = '[' :: '!' :: '_' :: ']' :: '*' :: (".scss").toList :=
    rfl
  rw [hpat]
  cases hnm : nm.toList with
  | nil =>
    rw [globMatchW_cons_nil _ _ (by decide)]
    simp
  | cons c cs =>
    rw [globMatchW.eq_4]
    simp only [Bool.and_eq_true, decide_eq_true_eq]
    rw [globMatchW_star_iff]
    constructor
    · rintro ⟨hne, a, b, rfl, hb⟩
      have hlit := (globMatchW_plain (".scss").toList (by decide) b).mp hb
      exact ⟨c, a, by rw [hlit], hne⟩
    · rintro ⟨c', mid, heq, hne⟩
      obtain ⟨rfl, rfl⟩ : c' = c ∧ cs = mid ++ (".scss").toList := by
        have := List.cons.inj heq
        exact ⟨this.1.symm, this.2⟩
      exact ⟨hne, mid, (".scss").toList, rfl,
        (globMatchW_plain (".scss").toList (by decide) _).mpr rfl⟩

/-- C7: the resolved input set of the partial-depth heuristic,
characterized exactly.  A path is gathered iff it is a non-partial
argument, or some partial argument contributes it: it lies directly in
one of the `k + 1` nearest ancestor directories of that partial
(starting at the immediate parent, never recursing into
subdirectories) and its name matches the non-partial scss glob;
moreover a name matches that glob iff it ends in `.scss` and its first
character is not an underscore. -/
theorem partial_depth_resolution (fs : FS) (k : Nat) (all : List FsPath) (q : FsPath)
    (nm : String) :
    (q ∈ gather_scss_paths fs k all ↔
      (∃ p ∈ all, isUnderscoreName p = false ∧ q = p) ∨
      (∃ p ∈ all, isUnderscoreName p = true ∧ ∃ j ≤ k,
        ∃ nm' ∈ globScssFiles fs (nthParent p.dropLast j),
          q = nthParent p.dropLast j ++ [nm'])) ∧
    (globMatchStr "[!_]*.scss" nm = true ↔
      ∃ c mid, nm.toList = c :: (mid ++ (".scss").toList) ∧ c ≠ '_') := by
  constructor
  · rw [gather_scss_paths, mem_gather_aux]
    constructor
    · rintro (hq | ⟨p, hp, hc⟩)
      · simp at hq
      · rcases hc with ⟨h1, h2⟩ | ⟨h1, h2⟩
        · exact Or.inl ⟨p, hp, h1, h2⟩
        · exact Or.inr ⟨p, hp, h1, h2⟩
    · rintro (⟨p, hp, h1, h2⟩ | ⟨p, hp, h1, h2⟩)
      · exact Or.inr ⟨p, hp, Or.inl ⟨h1, h2⟩⟩
      · exact Or.inr ⟨p, hp, Or.inr ⟨h1, h2⟩⟩
  · exact globScss_pattern_iff nm

end ScssCompileModel

namespace WebCompileModel

/-! ### C9 and C10: the template filters -/

theorem renderFold_error_absorb (root : FsPath) (fs : FS)
    (fm : List (FsPath × FsPath)) (ns : List TmplNode) (e : String) :
    ns.foldl
      (fun acc n =>
        match acc with
        | Except.error e => Except.error e
        | Except.ok s =>
          match renderNode root fs fm n with
          | Except.error e => Except.error e
          | Except.ok t => Except.ok (s ++ t)) (Except.error e) = Except.error e := by
  induction ns with
  | nil => rfl
  | cons n rest ih => rw [List.foldl_cons]; exact ih

theorem renderTemplate_ok_forall (root : FsPath) (fs : FS)
    (fm : List (FsPath × FsPath)) (ns : List TmplNode) :
    ∀ (acc : Except String String) (s : String),
      ns.foldl
        (fun acc n =>
          match acc with
          | Except.error e => Except.error e
          | Except.ok s =>
            match renderNode root fs fm n with
            | Except.error e => Except.error e
            | Except.ok t => Except.ok (s ++ t)) acc = Except.ok s →
      ∀ n ∈ ns, ∃ t, renderNode root fs fm n = Except.ok t := by
  induction ns with
  | nil => intro acc s _ n hn; exact absurd hn (List.not_mem_nil _)
  | cons n0 rest ih =>
    intro acc s hfold n hn
    rw [List.foldl_cons] at hfold
    rcases List.mem_cons.mp hn with rfl | htail
    · cases hrn : renderNode root fs fm n with
      | ok t => exact ⟨t, rfl⟩
      | error e =>
        exfalso
        cases acc with
        | error e0 =>
          exact absurd ((renderFold_error_absorb root fs fm rest e0).symm.trans hfold)
            (by simp)
        | ok s0 =>
          have hfold2 : rest.foldl
              (fun acc n =>
                match acc with
                | Except.error e => Except.error e
                | Except.ok s =>
                  match renderNode root fs fm n with
                  | Except.error e => Except.error e
                  | Except.ok t => Except.ok (s ++ t))
              (match renderNode root fs fm n with
                | Except.error e => Except.error e
                | Except.ok t => Except.ok (s0 ++ t)) = Except.ok s := hfold
          rw [hrn] at hfold2
          exact absurd ((renderFold_error_absorb root fs fm rest e).symm.trans hfold2)
            (by simp)
    · exact ih _ s hfold n htail

/-- C9: the filter lookup contract of `compile_jinja`.  A falsy or
unmapped path makes `compiled_name` (and `hash`) raise a `KeyError`;
a template containing such a filter call therefore fails to render and
the error is recorded against the template's input path; a mapped path
makes `compiled_name` return the final (hash-substituted) output
filename. -/
theorem template_filter_lookup (cc : Compilers) (cfg : Config) (root : FsPath)
    (git_repo : Bool) (st : RunSt) (item : FsPath × FsPath) (fs : FS)
    (fm : List (FsPath × FsPath)) (p : FsPath) :
    ((p = [] ∨ dictGet fm p = none) →
      renderNode root fs fm (TmplNode.compiledName p) =
        Except.error ("No compiled path: " ++ pathStr p) ∧
      renderNode root fs fm (TmplNode.hashOf p) =
        Except.error ("No compiled path: " ++ pathStr p)) ∧
    (∀ out, p ≠ [] → dictGet fm p = some out →
      renderNode root fs fm (TmplNode.compiledName p) = Except.ok (pathName out)) ∧
    (fsHas st.fs (root ++ item.1) = true →
      (∃ n ∈ cc.jinjaParse ((dictGet st.fs (root ++ item.1)).getD ""),
        ∀ t, renderNode root st.fs st.fileMap n ≠ Except.ok t) →
      ∃ e, renderTemplate root st.fs st.fileMap
          (cc.jinjaParse ((dictGet st.fs (root ++ item.1)).getD "")) = Except.error e ∧
        (itemState (jinjaItem cc cfg root git_repo st item)).errors =
          dictSet st.errors (pathStr (root ++ item.1)) e) := by
  refine ⟨?_, ?_, ?_⟩
  · intro h
    constructor <;> simp [renderNode, h]
  · intro out hp hout
    simp [renderNode, hp, hout]
  · intro hin hbad
    cases hr : renderTemplate root st.fs st.fileMap
        (cc.jinjaParse ((dictGet st.fs (root ++ item.1)).getD "")) with
    | ok s =>
      exfalso
      obtain ⟨n, hn, hfail⟩ := hbad
      obtain ⟨t, ht⟩ := renderTemplate_ok_forall root st.fs st.fileMap _ _ s hr n hn
      exact hfail t ht
    | error e =>
      refine ⟨e, rfl, ?_⟩
      cases hco : cfg.continue_on_error with
      | true => simp [jinjaItem, hin, hr, hco, itemState]
      | false => simp [jinjaItem, hin, hr, hco, itemState]

/-- Witness for C9: a template calling `compiled_name` on an unmapped
path fails and records the error; on a mapped path the filter returns
the final filename. -/
theorem template_filter_lookup_witness :
    renderNode [] [] [] (TmplNode.compiledName ["x.scss"]) =
      Except.error ("No compiled path: " ++ pathStr ["x.scss"]) ∧
    renderNode [] [] [(["a.scss"], ["dist", "a.css"])] (TmplNode.compiledName ["a.scss"]) =
      Except.ok (pathName ["dist", "a.css"]) ∧
    (∃ e, renderTemplate [] [(["t.j2"], "tpl")] []
        ((ccWJinja ["x.scss"]).jinjaParse
          ((dictGet [(["t.j2"], "tpl")] (([] : FsPath) ++ (["t.j2"], ["t.html"]).1)).getD ""))
        = Except.error e ∧
      (itemState (jinjaItem (ccWJinja ["x.scss"]) cfgX1 [] false
          (initSt [(["t.j2"], "tpl")] []) (["t.j2"], ["t.html"]))).errors =
        dictSet [] (pathStr (([] : FsPath) ++ (["t.j2"], ["t.html"]).1)) e) := by
  refine ⟨?_, ?_, ?_⟩
  · exact (template_filter_lookup ccW cfgX1 [] false (initSt [] []) ([], []) [] []
      ["x.scss"]).1 (Or.inr rfl) |>.1
  · exact (template_filter_lookup ccW cfgX1 [] false (initSt [] []) ([], []) []
      [(["a.scss"], ["dist", "a.css"])] ["a.scss"]).2.1 ["dist", "a.css"]
      (by decide) rfl
  · exact (template_filter_lookup (ccWJinja ["x.scss"]) cfgX1 [] false
      (initSt [(["t.j2"], "tpl")] []) (["t.j2"], ["t.html"]) [] [] []).2.2 (by decide)
      ⟨TmplNode.compiledName ["x.scss"], by decide,
        fun t ht => by simp [renderNode, initSt, dictGet] at ht⟩

set_option maxRecDepth 400000 in
/-- C10: the `hash` filter returns the md5 digest of the raw source
file read from disk as UTF-8 — not the digest of the compiled artifact
that hash-naming embeds in the output filename; on a concrete input the
two digests differ. -/
theorem hash_filter_raw_source (root : FsPath) (fs : FS) (fm : List (FsPath × FsPath))
    (p : FsPath) :
    (∀ out t, p ≠ [] → dictGet fm p = some out → dictGet fs (root ++ p) = some t →
      renderNode root fs fm (TmplNode.hashOf p) = Except.ok (hash_file t "utf8")) ∧
    (renderNode [] (itemState (sassItem ccW cfgW2 [] false (initSt [(["a.scss"], "x")] [])
        (["a.scss"], ["dist", "a.[hash].css"]))).fs
      (itemState (sassItem ccW cfgW2 [] false (initSt [(["a.scss"], "x")] [])
        (["a.scss"], ["dist", "a.[hash].css"]))).fileMap
      (TmplNode.hashOf ["a.scss"]) = Except.ok (hash_file "x" "utf8") ∧
    dictGet (itemState (sassItem ccW cfgW2 [] false (initSt [(["a.scss"], "x")] [])
        (["a.scss"], ["dist", "a.[hash].css"]))).fileMap ["a.scss"] =
      some ["dist", "a." ++ hash_file "C:x" "utf8" ++ ".css"] ∧
    hash_file "x" "utf8" ≠ hash_file "C:x" "utf8") := by
  constructor
  · intro out t hp hout ht
    simp [renderNode, hp, hout, ht]
  · have hfm : dictGet (itemState (sassItem ccW cfgW2 [] false (initSt [(["a.scss"], "x")] [])
        (["a.scss"], ["dist", "a.[hash].css"]))).fileMap ["a.scss"] =
        some ["dist", "a." ++ hash_file "C:x" "utf8" ++ ".css"] := by decide
    have hfs : dictGet (itemState (sassItem ccW cfgW2 [] false (initSt [(["a.scss"], "x")] [])
        (["a.scss"], ["dist", "a.[hash].css"]))).fs ["a.scss"] = some "x" := by decide
    refine ⟨?_, hfm, by decide⟩
    simp [renderNode, hfm, hfs]

/-- Witness for C10: the general clause applied at the concrete mapped
input. -/
theorem hash_filter_raw_source_witness :
    renderNode [] [(["a.scss"], "x")] [(["a.scss"], ["dist", "a.css"])]
      (TmplNode.hashOf ["a.scss"]) = Except.ok (hash_file "x" "utf8") :=
  (hash_filter_raw_source [] [(["a.scss"], "x")] [(["a.scss"], ["dist", "a.css"])]
    ["a.scss"]).1 ["dist", "a.css"] "x" (by decide) rfl rfl

end WebCompileModel
